import Mathlib

/-!
Verification development for the `upstreams-rs` repository: a shallow
embedding of its version-pattern extraction engine (`src/versioning.rs`)
and of the host layer (`src/host/mod.rs`, `src/host/github.rs`,
`src/host/gnome.rs`, `src/host/plain.rs`), together with theorems about
the claims of the specification.

Strings are embedded as `List Char` (`Str`); Rust's `&str` methods used
by the code (`split`, `contains`, `starts_with`, `trim_start_matches`)
are embedded as explicit recursive functions below.
-/

namespace Upstreams

/-- Rust strings, embedded as lists of characters. Rust compares strings
by their UTF-8 bytes; UTF-8 byte order coincides with code-point order,
so character-wise comparison below is faithful. -/
abbrev Str := List Char

/-- Embeds Rust `str::contains(pat)` (substring search). -/
def containsStr (hay pat : Str) : Bool :=
  pat.isPrefixOf hay ||
    match hay with
    | [] => false
    | _ :: t => containsStr t pat

/-- Embeds Rust `str::split(c)`: the list of chunks between occurrences
of `c` (always non-empty; splitting the empty string gives `[[]]`). -/
def splitChar (c : Char) : Str → List Str
  | [] => [[]]
  | x :: xs =>
    match splitChar c xs with
    | [] => [[]]
    | y :: ys => if x = c then [] :: y :: ys else (x :: y) :: ys

/-- Embeds `path.split('/').last()` (which on Rust's `Split` iterator is
always `Some`, since splitting yields at least one chunk). -/
def lastSeg (s : Str) : Str := (splitChar '/' s).getLastD []

/-- Embeds `Vec::join("/")`. -/
def joinChar (c : Char) : List Str → Str
  | [] => []
  | [x] => x
  | x :: y :: ys => x ++ c :: joinChar c (y :: ys)

/-!
## Regular-expression engine

The `regex` crate implements leftmost-first (Perl-style preference)
match semantics. We embed the fragment of its syntax used by the
default pattern table of `VersionExtractor::add_default_patterns`:
character classes, concatenation, alternation, greedy and lazy `?`,
`*`, `+`, capture groups, and the end-of-haystack anchor `$`.

The matcher enumerates, in backtracking preference order, every way a
regex can match a prefix of the input, each as `(consumed, captures)`.
The first element is the match the `regex` crate's `captures` reports
at that starting offset. Classes `\d` and `\w` are embedded as their
ASCII subsets (no input in this development contains non-ASCII text).
-/

/-- Character classes appearing in the default pattern table. -/
inductive CC where
  /-- `[^/]` -/
  | notSlash
  /-- `[-_]` -/
  | dashUnd
  /-- `\d` -/
  | digit
  /-- `[._]` -/
  | dotUnd
  /-- `[-]` -/
  | dash
  /-- `[-.]` -/
  | dashDot
  /-- `[-_.]` -/
  | dashUndDot
  /-- `[\d.]` -/
  | digitDot
  /-- the class matching anything except `-` and the slash -/
  | notDashSlash
  /-- `[\w]` -/
  | wordChar
  /-- `.` (any character but a newline) -/
  | anyChar
  /-- a literal character -/
  | lit (c : Char)
deriving DecidableEq

def CC.test : CC → Char → Bool
  | .notSlash, c => c ≠ '/'
  | .dashUnd, c => c = '-' || c = '_'
  | .digit, c => c.isDigit
  | .dotUnd, c => c = '.' || c = '_'
  | .dash, c => c = '-'
  | .dashDot, c => c = '-' || c = '.'
  | .dashUndDot, c => c = '-' || c = '_' || c = '.'
  | .digitDot, c => c.isDigit || c = '.'
  | .notDashSlash, c => c ≠ '-' && c ≠ '/'
  | .wordChar, c => c.isAlphanum || c = '_'
  | .anyChar, c => c ≠ '\n'
  | .lit l, c => c = l

/-- Regex abstract syntax. `grp` is a capture group with a numeric
index (the table's named groups: 1 = `name`, 2 = `version`). The
boolean on `opt` and `star` is `true` for greedy, `false` for lazy. -/
inductive RE where
  | eps
  | cls (c : CC)
  | cat (a b : RE)
  | alt (a b : RE)
  | opt (greedy : Bool) (a : RE)
  | star (greedy : Bool) (a : RE)
  | grp (i : Nat) (a : RE)
  | eos
deriving DecidableEq

/-- `a+` (greedy or lazy): one occurrence, then a star. -/
def RE.plus (greedy : Bool) (a : RE) : RE := .cat a (.star greedy a)

/-- A literal string as a regex. -/
def RE.str : Str → RE
  | [] => .eps
  | c :: cs => .cat (.cls (.lit c)) (RE.str cs)

/-- Recorded captures: group index paired with captured text. -/
abbrev Caps := List (Nat × Str)

/-- The iteration engine for `star`: `m` enumerates the matches of the
star's body. Only iterations that consume at least one character
continue the loop; every repetition body in the default table is
non-nullable, so this drops nothing the `regex` crate would keep, and
the fuel (initially `s.length + 1`, spent once per consuming
iteration) can never reach zero. The greedy flag puts the empty
iteration last (greedy) or first (lazy). -/
def starRun (m : Str → List (Nat × Caps)) (g : Bool) : Nat → Str → List (Nat × Caps)
  | 0, _ => [(0, [])]
  | fuel + 1, s =>
    let tails := (m s).flatMap fun p =>
      if 0 < p.1 then
        (starRun m g fuel (s.drop p.1)).map fun q => (p.1 + q.1, p.2 ++ q.2)
      else []
    if g then tails ++ [(0, [])] else (0, []) :: tails

/-- All matches of `re` against a prefix of `s`, in backtracking
preference order, as `(number of characters consumed, captures)`. -/
def matchR : RE → Str → List (Nat × Caps)
  | .eps, _ => [(0, [])]
  | .cls c, s =>
    match s with
    | [] => []
    | ch :: _ => if c.test ch then [(1, [])] else []
  | .cat a b, s =>
    (matchR a s).flatMap fun p =>
      (matchR b (s.drop p.1)).map fun q => (p.1 + q.1, p.2 ++ q.2)
  | .alt a b, s => matchR a s ++ matchR b s
  | .opt g a, s =>
    if g then matchR a s ++ [(0, [])] else (0, []) :: matchR a s
  | .star g a, s => starRun (matchR a) g (s.length + 1) s
  | .grp i a, s => (matchR a s).map fun p => (p.1, (i, s.take p.1) :: p.2)
  | .eos, s => if s.isEmpty then [(0, [])] else []

/-- Embeds `Regex::captures`: scan starting offsets left to right and
report the preferred match at the first offset that has one (the
crate's leftmost-first semantics). Only the captures are kept. -/
def findFrom (re : RE) : Str → Option Caps
  | [] => ((matchR re []).head?).map fun p => p.2
  | x :: t =>
    match (matchR re (x :: t)).head? with
    | some p => some p.2
    | none => findFrom re t

/-! ## The default pattern table (`VersionExtractor::add_default_patterns`) -/

/-- `VersionStyle` from `src/versioning.rs`. -/
inductive VersionStyle where
  | semver
  | dateBased
  | releaseSeries
  | simple
deriving DecidableEq

/-- `VersionPattern` from `src/versioning.rs` (priority is a `u8`;
all default priorities are small, so `Nat` loses nothing). -/
structure VersionPattern where
  style : VersionStyle
  re : RE
  priority : Nat

/-- All six default patterns share the shape
`(?P<name>…) SEP …rest…` with `SEP` a single character class:
`[-_]` for the first five, `[-]` for the catch-all. -/
def mkPat (namePart : RE) (sepCls : CC) (rest : RE) : RE :=
  .cat (.grp 1 namePart) (.cat (.cls sepCls) rest)

/-- `\d{n}` -/
def RE.rep : Nat → RE → RE
  | 0, _ => .eps
  | n + 1, r => .cat r (RE.rep n r)

/-- `v?` -/
def vOpt : RE := .opt true (.cls (.lit 'v'))

/-- `(?:\.(?:tar(?:\.[^/]*)?|zip|tgz))?` — the optional archive suffix
shared by the first five patterns. -/
def archSuffix : RE :=
  .cat (.cls (.lit '.'))
    (.alt (.cat (RE.str "tar".data) (.opt true (.cat (.cls (.lit '.')) (.star true (.cls .notSlash)))))
      (.alt (RE.str "zip".data) (RE.str "tgz".data)))

def archOpt : RE := .opt true archSuffix

/-- Priority 5, DateBased: `(?P<name>[^/]+)[-_]v?(?P<version>\d{8}(?:[-]\d+\.\d+)?)(?:\.(?:tar(?:\.[^/]*)?|zip|tgz))?$` -/
def pat5 : VersionPattern :=
  { style := .dateBased
    priority := 5
    re := mkPat (RE.plus true (.cls .notSlash)) .dashUnd
      (.cat vOpt (.cat
        (.grp 2 (.cat (RE.rep 8 (.cls .digit))
          (.opt true (.cat (.cls .dash)
            (.cat (RE.plus true (.cls .digit))
              (.cat (.cls (.lit '.')) (RE.plus true (.cls .digit))))))))
        (.cat archOpt .eos))) }

/-- The qualifier alternation `(?:rc|alpha|beta|dev|pre|post|build|\d+)`. -/
def semverQual : RE :=
  .alt (RE.str "rc".data)
    (.alt (RE.str "alpha".data)
      (.alt (RE.str "beta".data)
        (.alt (RE.str "dev".data)
          (.alt (RE.str "pre".data)
            (.alt (RE.str "post".data)
              (.alt (RE.str "build".data) (RE.plus true (.cls .digit))))))))

/-- Priority 10, Semver: `(?P<name>[^/]+)[-_]v?(?P<version>(?:\d+[._]\d+[._]\d+(?:[-.](?:rc|alpha|beta|dev|pre|post|build|\d+))*))(?:\.…)?$` -/
def pat10 : VersionPattern :=
  { style := .semver
    priority := 10
    re := mkPat (RE.plus true (.cls .notSlash)) .dashUnd
      (.cat vOpt (.cat
        (.grp 2 (.cat (RE.plus true (.cls .digit))
          (.cat (.cls .dotUnd)
            (.cat (RE.plus true (.cls .digit))
              (.cat (.cls .dotUnd)
                (.cat (RE.plus true (.cls .digit))
                  (.star true (.cat (.cls .dashDot) semverQual))))))))
        (.cat archOpt .eos))) }

/-- Priority 25, DateBased: `(?P<name>[^/]+)[-_]v?(?P<version>\d{4}[._]\d{2}[._]\d{2})(?:[-_.][\d.]+)?(?:\.…)?$` -/
def pat25 : VersionPattern :=
  { style := .dateBased
    priority := 25
    re := mkPat (RE.plus true (.cls .notSlash)) .dashUnd
      (.cat vOpt (.cat
        (.grp 2 (.cat (RE.rep 4 (.cls .digit))
          (.cat (.cls .dotUnd)
            (.cat (RE.rep 2 (.cls .digit))
              (.cat (.cls .dotUnd) (RE.rep 2 (.cls .digit)))))))
        (.cat (.opt true (.cat (.cls .dashUndDot) (RE.plus true (.cls .digitDot))))
          (.cat archOpt .eos)))) }

/-- Priority 30, Simple: `(?P<name>[^/]+)[-_]v?(?P<version>\d+\.\d+)(?:\.…)?$` -/
def pat30 : VersionPattern :=
  { style := .simple
    priority := 30
    re := mkPat (RE.plus true (.cls .notSlash)) .dashUnd
      (.cat vOpt (.cat
        (.grp 2 (.cat (RE.plus true (.cls .digit))
          (.cat (.cls (.lit '.')) (RE.plus true (.cls .digit)))))
        (.cat archOpt .eos))) }

/-- Priority 35, Simple: `(?P<name>[^/]+)[-_]v?(?P<version>\d+)(?:\.…)?$` -/
def pat35 : VersionPattern :=
  { style := .simple
    priority := 35
    re := mkPat (RE.plus true (.cls .notSlash)) .dashUnd
      (.cat vOpt (.cat (.grp 2 (RE.plus true (.cls .digit)))
        (.cat archOpt .eos))) }

/-- Priority 100, Simple catch-all: a lazy `(?P<name>.*?)`, a `[-]`
separator, a lazy `(?P<version>…+?)` over the class excluding `-` and
the slash, then `(?:\.(?:tar(?:\.[^/]*)?|zip|tgz)|\.[\w]+)?$`. -/
def pat100 : VersionPattern :=
  { style := .simple
    priority := 100
    re := mkPat (.star false (.cls .anyChar)) .dash
      (.cat (.grp 2 (RE.plus false (.cls .notDashSlash)))
        (.cat (.opt true (.alt archSuffix
          (.cat (.cls (.lit '.')) (RE.plus true (.cls .wordChar)))))
          .eos)) }

/-- The table built by `add_default_patterns`. It is written in
ascending priority order in the source; the subsequent stable
`sort_by_key(|p| p.priority)` therefore leaves it unchanged. -/
def defaultPatterns : List VersionPattern :=
  [pat5, pat10, pat25, pat30, pat35, pat100]

/-! ## `VersionExtractor::extract` -/

/-- `Extraction` from `src/versioning.rs`. -/
structure Extraction where
  name : Str
  version : Str
deriving DecidableEq

/-- `VersionError` from `src/versioning.rs`. A `regex::Error` is
carried as its message. -/
inductive VersionError where
  | invalidVersion
  | regexError (msg : Str)
deriving DecidableEq

instance {ε α : Type} [DecidableEq ε] [DecidableEq α] : DecidableEq (Except ε α) :=
  fun a b =>
    match a, b with
    | .ok x, .ok y => decidable_of_iff (x = y) (by simp)
    | .error x, .error y => decidable_of_iff (x = y) (by simp)
    | .ok _, .error _ => isFalse (by simp)
    | .error _, .ok _ => isFalse (by simp)

/-- One iteration of the matching loop in `extract`: run
`pattern.captures(filename)` and return an `Extraction` when the named
groups `name` (1) and `version` (2) are both present. -/
def runPattern (p : VersionPattern) (filename : Str) : Option Extraction :=
  match findFrom p.re filename with
  | none => none
  | some caps =>
    match caps.lookup 1, caps.lookup 2 with
    | some n, some v => some ⟨n, v⟩
    | _, _ => none

/-- The generic-matching part of `extract`: take the final
`/`-separated segment as the filename (for Rust's `Split` iterator
`last()` is always `Some`) and try the patterns in table order,
returning the first hit. -/
def extractGeneric (path : Str) : Except VersionError Extraction :=
  match defaultPatterns.findSome? fun p => runPattern p (lastSeg path) with
  | some e => .ok e
  | none => .error .invalidVersion

/-! ## URLs

The repository parses URLs with the external `url` crate, which this
development treats as a collaborator. A parsed URL is embedded as its
observable parts used by the code: `host_str()`, `path()` and the full
serialization `as_ref()`. `parseUrl` models `Url::parse` restricted to
`http`/`https` URLs with a non-empty host and no userinfo, port, query
or fragment — the only shapes this development evaluates it on. For a
special scheme the crate normalizes an absent path to `/`. -/

structure Url where
  host : Option Str
  path : Str
  raw : Str
deriving DecidableEq

def parseUrl (s : Str) : Option Url :=
  let afterScheme : Option Str :=
    if "https://".data.isPrefixOf s then some (s.drop 8)
    else if "http://".data.isPrefixOf s then some (s.drop 7)
    else none
  match afterScheme with
  | none => none
  | some rest =>
    let host := rest.takeWhile fun c => c ≠ '/'
    if host = [] then none
    else
      let path := rest.dropWhile fun c => c ≠ '/'
      some { host := some host, path := if path = [] then ['/'] else path, raw := s }

/-- `Url::path_segments()`: `Some` of the `/`-separated segments of the
path without its leading slash (http(s) URLs always have such a path). -/
def Url.pathSegments (u : Url) : Option (List Str) :=
  match u.path with
  | '/' :: rest => some (splitChar '/' rest)
  | _ => none

/-! ## `VersionExtractor::try_extract_vcs_url` and `extract` -/

/-- The `match url.host_str()` statement of `try_extract_vcs_url`: the
two guarded forge arms and the catch-all `_ => None`. `inner` is the
recursive call back into `extract`. -/
def vcsBranch (inner : Str → Except VersionError Extraction)
    (url : Url) : Option (Except VersionError Extraction) :=
  match url.host with
  | some h =>
    if h = "github.com".data ∧ containsStr url.path "archive/refs/tags/".data then
      match (splitChar '/' url.path).get? 2, (splitChar '/' url.path).getLast? with
      | some project, some asset =>
        some ((inner (project ++ '-' :: asset)).map fun m => { m with name := project })
      | _, _ => none
    else if h = "gitlab.com".data ∧ containsStr url.path "repository/archive.tar.gz".data then
      match (splitChar '/' url.path).get? 2 with
      | some project =>
        some ((inner (project ++ "-archive.tar.gz".data)).map fun m => { m with name := project })
      | none => none
    else none
  | none => none

/-- `try_extract_vcs_url`, parametrized by the recursive call it makes
back into `extract` (`inner`). Returns `none` when the path is not a
recognized VCS archive URL, letting `extract` fall through to generic
matching. -/
def tryExtractVcsUrl (inner : Str → Except VersionError Extraction)
    (path : Str) : Option (Except VersionError Extraction) :=
  if !containsStr path "github.com".data && !containsStr path "gitlab.com".data then
    none
  else
    match parseUrl path with
    | none => none
    | some url => vcsBranch inner url

/-- `extract`, with explicit recursion depth. The Rust function calls
itself once on a synthesized `faux` filename; `faux` joins two
slash-free path segments with `-` (or appends `-archive.tar.gz`), so
it contains no slash and, not being a URL, never re-enters the VCS
branch — see `extractFuel_stable` below. Depth 2 therefore computes the
same result as the unbounded recursion. -/
def extractFuel : Nat → Str → Except VersionError Extraction
  | 0, path => extractGeneric path
  | n + 1, path =>
    match tryExtractVcsUrl (extractFuel n) path with
    | some r => r
    | none => extractGeneric path

/-- `VersionExtractor::extract` for the default extractor. -/
def extract (path : Str) : Except VersionError Extraction := extractFuel 2 path

/-!
## Data model (`VersionMetadata`, `VersionedAsset`, `AssetKind`)

Modelled from the spec: these types live in the crate root (not among
the provided host/versioning sources). Per the spec's data model,
`VersionedAsset` is `{url, kind, released_at, updated_at}` with
equality and ordering by the full tuple (Rust derives them field by
field in declaration order, `Option` ordering `None < Some`), and
`AssetKind` is the closed tag `Release`/`Autogenerated`, listed in that
order. `Ordering`-valued comparison functions stand in for the derived
`Ord` instances; Rust string ordering is byte-wise, which agrees with
the character-wise comparison below because UTF-8 is monotone in code
points. -/
inductive AssetKind where
  | release
  | autogenerated
deriving DecidableEq

structure VersionedAsset where
  url : Str
  kind : AssetKind
  released_at : Option Str
  updated_at : Option Str
deriving DecidableEq

/-- `VersionMetadata` (spec data model). The GitHub host snapshot in
the sources predates the `released_at` field and never sets it. -/
structure VersionMetadata where
  version : Str
  downloads : List VersionedAsset
  release_notes : Option Str
  released_at : Option Str
deriving DecidableEq

def cmpChar (a b : Char) : Ordering := compare a.toNat b.toNat

def cmpStr : Str → Str → Ordering
  | [], [] => .eq
  | [], _ :: _ => .lt
  | _ :: _, [] => .gt
  | a :: as, b :: bs => (cmpChar a b).then (cmpStr as bs)

def kindRank : AssetKind → Nat
  | .release => 0
  | .autogenerated => 1

def cmpOpt : Option Str → Option Str → Ordering
  | none, none => .eq
  | none, some _ => .lt
  | some _, none => .gt
  | some a, some b => cmpStr a b

/-- The derived tuple ordering on `VersionedAsset`. -/
def cmpVa (a b : VersionedAsset) : Ordering :=
  (cmpStr a.url b.url).then
    ((compare (kindRank a.kind) (kindRank b.kind)).then
      ((cmpOpt a.released_at b.released_at).then (cmpOpt a.updated_at b.updated_at)))

/-- `BTreeSet::insert` on a strictly-ascending list: keep the existing
element when an equal one is inserted. -/
def setInsertBy {α : Type} (cmp : α → α → Ordering) (a : α) : List α → List α
  | [] => [a]
  | b :: t =>
    match cmp a b with
    | .lt => a :: b :: t
    | .eq => b :: t
    | .gt => b :: setInsertBy cmp a t

/-- `iter().collect::<BTreeSet<_>>()` followed by ordered iteration. -/
def collectSet {α : Type} (cmp : α → α → Ordering) (l : List α) : List α :=
  l.foldl (fun s a => setInsertBy cmp a s) []

/-! ## GithubHost (`src/host/github.rs`) -/

/-- Errors from `src/host/mod.rs`. The `source` of the two API
variants is an opaque `reqwest::Error`; only the `context` string is
modelled. -/
inductive HostError where
  | invalidUrl (msg : Str)
  | parseError (msg : Str)
  | apiRequest (context : Str)
  | apiResponse (context : Str)
  | unsupported (msg : Str)
deriving DecidableEq

structure GithubTagCommit where
  sha : Str
  url : Str
deriving DecidableEq

structure GithubTagResponse where
  name : Str
  zipball_url : Str
  tarball_url : Str
  commit : GithubTagCommit
  node_id : Str
deriving DecidableEq

structure GithubReleaseAsset where
  name : Str
  label : Option Str
  content_type : Str
  state : Str
  size : Nat
  download_count : Nat
  created_at : Str
  updated_at : Str
  browser_download_url : Str
deriving DecidableEq

structure GithubReleaseResponse where
  tag_name : Str
  name : Str
  body : Str
  assets : List GithubReleaseAsset
  tarball_url : Str
  zipball_url : Str
  published_at : Str
deriving DecidableEq

structure GithubHost where
  owner : Str
  repo : Str
  url : Url
deriving DecidableEq

/-- `GithubHost::from_url`. -/
def GithubHost.fromUrl (u : Url) : Except HostError GithubHost :=
  let parts := ((splitChar '/' u.path).drop 1).filter fun x => x ≠ []
  match parts.get? 0 with
  | none => .error (.parseError "missing repository owner in GitHub URL".data)
  | some owner =>
    match parts.get? 1 with
    | none => .error (.parseError "missing repository name in GitHub URL".data)
    | some repo => .ok { owner := owner, repo := repo, url := u }

/-- The pure core of `GithubHost::versions`: the two REST fetches are
I/O, so their decoded responses are inputs here. -/
def githubVersions (tags : List GithubTagResponse)
    (releases : List GithubReleaseResponse) : List VersionMetadata :=
  let version_strings :=
    collectSet cmpStr ((tags.map fun tag => tag.name) ++ (releases.map fun r => r.tag_name))
  version_strings.map fun version =>
    let downloads := collectSet cmpVa
      (((tags.filter fun tag => tag.name = version).map fun tag =>
          ({ url := tag.tarball_url, kind := .autogenerated,
             released_at := none, updated_at := none } : VersionedAsset))
        ++ (releases.filter fun r => r.tag_name = version).flatMap fun r =>
          ({ url := r.tarball_url, kind := .release,
             released_at := none, updated_at := none } : VersionedAsset)
            :: r.assets.map fun a =>
              ({ url := a.browser_download_url, kind := .autogenerated,
                 released_at := none, updated_at := none } : VersionedAsset))
    let release_notes := (releases.find? fun r => r.tag_name = version).map fun r => r.body
    { version := version, downloads := downloads,
      release_notes := release_notes, released_at := none }

/-! ## PlainHost (`src/host/plain.rs`) -/

structure PlainHost where
  path : Str
  url : Url
  directory : Str
deriving DecidableEq

/-- `PlainHost::from_url`. -/
def PlainHost.fromUrl (u : Url) : PlainHost :=
  { path := u.path.dropWhile fun c => c = '/'
    url := u
    directory := joinChar '/' ((u.pathSegments.getD []).dropLast) }

/-- The `Display` rendering of a `VersionError` (used via
`e.to_string()` in `PlainHost::versions`). -/
def versionErrorMsg : VersionError → Str
  | .invalidVersion => "No version found in path".data
  | .regexError msg => "Invalid regex pattern: ".data ++ msg

/-- `HashMap::entry(k).or_insert_with(Vec::new).extend(v)`, on an
association list. Iteration order of the real `HashMap` is arbitrary;
insertion order is as good as any, and no theorem below depends on it. -/
def hmExtend (k : Str) (v : List VersionedAsset) :
    List (Str × List VersionedAsset) → List (Str × List VersionedAsset)
  | [] => [(k, v)]
  | (k', v') :: t => if k' = k then (k', v' ++ v) :: t else (k', v') :: hmExtend k v t

/-- The pure core of `PlainHost::versions`: the HTML fetch and the
anchor-element scrape are I/O, so the scraped `href` attribute values
(in document order, `""` when absent) are an input. -/
def plainVersions (host : PlainHost) (hrefs : List Str) :
    Except HostError (List VersionMetadata) :=
  match extract host.url.raw with
  | .error e => .error (.parseError (versionErrorMsg e))
  | .ok matchUs =>
    let versions := hrefs.foldl
      (fun m href =>
        match extract href with
        | .ok mh =>
          if mh.name = matchUs.name then
            let fullUrl :=
              if "http".data.isPrefixOf href then href
              else (host.url.host.getD []) ++ host.directory ++
                '/' :: (href.dropWhile fun c => c = '.')
            hmExtend mh.version
              [{ url := fullUrl, kind := .release,
                 released_at := none, updated_at := none }] m
          else m
        | .error _ => m)
      []
    .ok (versions.map fun p =>
      { version := p.1, downloads := p.2, release_notes := none, released_at := none })

/-! ## GnomeHost (`src/host/gnome.rs`) -/

structure GnomeHost where
  project : Str
  url : Url
deriving DecidableEq

/-- `GnomeHost::from_url`. -/
def GnomeHost.fromUrl (u : Url) : Except HostError GnomeHost :=
  match u.pathSegments with
  | none => .error (.invalidUrl "invalid URL format".data)
  | some segs =>
    let path := segs.filter fun p => p ≠ []
    let sourcePath := path.headD []
    if sourcePath ≠ "sources".data then .error (.invalidUrl "invalid URL format".data)
    else
      match path.get? 1 with
      | none => .error (.invalidUrl "invalid URL format".data)
      | some project => .ok { project := project, url := u }

structure GnomeCacheComponentFile where
  news : Option Str
  changes : Option Str
  sha256sum : Option Str
  tarxz : Option Str
  targz : Option Str
  tarbz2 : Option Str
deriving DecidableEq

/-- `GnomeCacheResponse`. The two `HashMap` levels (components, and
versions within a component) are modelled as association lists; the
real iteration order is arbitrary and no theorem below depends on it,
while the `HashMap` invariant (distinct keys) becomes a hypothesis
where needed. -/
structure GnomeCacheResponse where
  format : Nat
  components : List (Str × List (Str × GnomeCacheComponentFile))
  versions : List (Str × List Str)
  meta : List (Str × List Str)
deriving DecidableEq

/-- The pure core of `GnomeHost::versions`: the `cache.json` fetch is
I/O, so the decoded response is an input. -/
def gnomeVersions (host : GnomeHost) (resp : GnomeCacheResponse) : List VersionMetadata :=
  resp.components.flatMap fun comp =>
    comp.2.map fun vf =>
      let mkAsset : Str → VersionedAsset := fun f =>
        { url := "https://download.gnome.org/sources/".data ++ host.project ++ '/' :: f
          kind := .release, released_at := none, updated_at := none }
      let downloads :=
        (match vf.2.tarxz with | some f => [mkAsset f] | none => []) ++
        (match vf.2.targz with | some f => [mkAsset f] | none => []) ++
        (match vf.2.tarbz2 with | some f => [mkAsset f] | none => [])
      { version := vf.1, downloads := downloads,
        release_notes := none, released_at := none }

/-! ## The dispatcher (`from_url` in `src/host/mod.rs`) -/

/-- The two host kinds `from_url` can return (a `Box<dyn Host>` in the
source; `GnomeHost` is never dispatched). -/
inductive HostBox where
  | github (h : GithubHost)
  | plain (h : PlainHost)
deriving DecidableEq

def fromUrl (u : Url) : Except HostError HostBox :=
  match u.host with
  | some h =>
    if h = "github.com".data then (GithubHost.fromUrl u).map .github
    else .ok (.plain (PlainHost.fromUrl u))
  | none => .ok (.plain (PlainHost.fromUrl u))

/-!
## Lawfulness of the comparison functions and `BTreeSet` insertion
-/

/-- The laws a comparison function shares with a derived Rust `Ord`:
`eq` is equality, swapping the arguments swaps the verdict, and `lt`
is transitive. -/
structure IsCmp {α : Type} (cmp : α → α → Ordering) : Prop where
  eq_iff : ∀ a b, cmp a b = .eq ↔ a = b
  swap : ∀ a b, (cmp a b).swap = cmp b a
  lt_trans : ∀ {a b c}, cmp a b = .lt → cmp b c = .lt → cmp a c = .lt


/-!
## Definitions supporting the claim statements
-/

/-- The per-`href` step of `PlainHost::versions`, as a predicate used
in theorem statements: `none` when the `href` is dropped, otherwise
`(version, full_url)` exactly as the loop computes them. -/
def keptAsset (matchUs : Extraction) (hostStr directory : Str) (href : Str) :
    Option (Str × Str) :=
  match extract href with
  | .ok m =>
    if m.name = matchUs.name then
      some (m.version,
        if "http".data.isPrefixOf href then href
        else hostStr ++ directory ++ '/' :: (href.dropWhile fun c => c = '.'))
    else none
  | .error _ => none

/-- `(version, url)` pairs reachable in an association map of download
lists (only `Release` assets without timestamps occur in
`PlainHost::versions`). -/
def pairMem (m : List (Str × List VersionedAsset)) (v u : Str) : Prop :=
  ∃ dls, (v, dls) ∈ m ∧ (⟨u, .release, none, none⟩ : VersionedAsset) ∈ dls

/-- Follows the words of the spec claim, for comparison with the code:
a URL string is absolute when it carries an `http(s)` scheme. -/
def specAbsoluteUrl (href : Str) : Bool :=
  "http://".data.isPrefixOf href || "https://".data.isPrefixOf href

/-- Follows the words of the spec claim, for comparison with the code:
the asset URL is the `href` itself when the `href` is already absolute,
and otherwise the join of host, directory and the `href` with its
leading `.` trimmed. -/
def specC3AssetUrl (hostStr directory href : Str) : Str :=
  if specAbsoluteUrl href then href
  else hostStr ++ directory ++ '/' :: (href.dropWhile fun c => c = '.')

/-- Characters that pass through URL parsing untouched: ASCII
alphanumerics and `-`, `_`, `.`, `~`, `+`. Restricting the path
segments of claim C4 to these keeps the simplified `parseUrl` model in
agreement with the real `url` crate (no percent-encoding, no query or
fragment delimiters, no scheme or authority separators). -/
def urlSafe (c : Char) : Bool :=
  c.isAlphanum || c = '-' || c = '_' || c = '.' || c = '~' || c = '+'

/-! ### Concrete inputs used by counterexamples and witnesses -/

/-- The tag of the spec's deduplication scenario: `{name: "v1.0",
tarball_url: "A"}` (remaining REST fields are irrelevant filler). -/
def c1Tag : GithubTagResponse :=
  { name := "v1.0".data, zipball_url := "Z".data, tarball_url := "A".data,
    commit := { sha := "f00".data, url := "cu".data }, node_id := "n1".data }

/-- The release of the spec's deduplication scenario:
`{tag_name: "v1.0", tarball_url: "A", assets: []}`. -/
def c1Rel : GithubReleaseResponse :=
  { tag_name := "v1.0".data, name := "one".data, body := "notes".data, assets := [],
    tarball_url := "A".data, zipball_url := "Z".data, published_at := "2025".data }

def gnomeUrl : Url :=
  { host := some "download.gnome.org".data, path := "/sources/proj".data,
    raw := "https://download.gnome.org/sources/proj".data }

def c2GnomeHost : GnomeHost := { project := "proj".data, url := gnomeUrl }

def c2File : GnomeCacheComponentFile :=
  { news := none, changes := none, sha256sum := none,
    tarxz := some "f.tar.xz".data, targz := none, tarbz2 := none }

/-- A cache response with two components that share the version string
`1.0`. -/
def c2Resp : GnomeCacheResponse :=
  { format := 4
    components := [("a".data, [("1.0".data, c2File)]), ("b".data, [("1.0".data, c2File)])]
    versions := []
    meta := [] }

def c3Url : Url :=
  { host := some "example.com".data, path := "/dist/httpx-0.9.tar.gz".data,
    raw := "https://example.com/dist/httpx-0.9.tar.gz".data }

def c3Host : PlainHost := PlainHost.fromUrl c3Url

/-- A relative `href` that nevertheless starts with the literal
characters `http`: the project is called `httpx`. -/
def c3Href : Str := "httpx-1.0.tar.gz".data

/-- A single-component cache response whose version keys are distinct. -/
def c2RespOk : GnomeCacheResponse :=
  { format := 4
    components := [("a".data, [("1.0".data, c2File), ("2.0".data, c2File)])]
    versions := []
    meta := [] }

/-- The output of `plainVersions c3Host [c3Href]`, used to discharge
the hypothesis of the amended C2 at a concrete input. -/
def c2PlainOut : List VersionMetadata :=
  [{ version := "1.0".data
     downloads := [{ url := c3Href, kind := .release,
                     released_at := none, updated_at := none }]
     release_notes := none, released_at := none }]

def c6Url : Url :=
  { host := some "github.com".data, path := "/".data, raw := "https://github.com/".data }

def c6OkUrl : Url :=
  { host := some "github.com".data, path := "/cli/cli".data,
    raw := "https://github.com/cli/cli".data }

def c6OtherUrl : Url :=
  { host := some "example.com".data, path := "/dist/nano-8.3.tar.xz".data,
    raw := "https://example.com/dist/nano-8.3.tar.xz".data }

def c7Url : Url :=
  { host := some "download.gnome.org".data, path := "/sources/gtk/3.24".data,
    raw := "https://download.gnome.org/sources/gtk/3.24".data }

def c7BadUrl : Url :=
  { host := some "download.gnome.org".data, path := "/teams/gtk".data,
    raw := "https://download.gnome.org/teams/gtk".data }

/-! ## Supporting lemmas -/

theorem splitChar_ne_nil (c : Char) (s : Str) : splitChar c s ≠ [] := by
  cases s with
  | nil => simp [splitChar]
  | cons x xs =>
    simp only [splitChar]
    cases h : splitChar c xs with
    | nil => simp
    | cons y ys =>
      by_cases hx : x = c <;> simp [hx]

theorem splitChar_not_mem (c : Char) (s : Str) :
    ∀ piece ∈ splitChar c s, c ∉ piece := by
  induction s with
  | nil => simp [splitChar]
  | cons x xs ih =>
    intro piece hp
    rw [splitChar] at hp
    cases hsp : splitChar c xs with
    | nil => exact absurd hsp (splitChar_ne_nil c xs)
    | cons y ys =>
      rw [hsp] at hp
      have ihy : c ∉ y := ih y (by rw [hsp]; exact List.mem_cons_self y ys)
      change piece ∈ (if x = c then [] :: y :: ys else (x :: y) :: ys) at hp
      by_cases hx : x = c
      · rw [if_pos hx] at hp
        rcases List.mem_cons.mp hp with hps | hps
        · subst hps; simp
        · exact ih piece (by rw [hsp]; exact hps)
      · rw [if_neg hx] at hp
        rcases List.mem_cons.mp hp with hps | hps
        · subst hps
          intro hmem
          rcases List.mem_cons.mp hmem with hc | hc
          · exact hx hc.symm
          · exact ihy hc
        · exact ih piece (by rw [hsp]; exact List.mem_cons_of_mem _ hps)

theorem splitChar_append (c : Char) (xs ys : Str) (hxs : c ∉ xs) :
    splitChar c (xs ++ c :: ys) =
      xs :: splitChar c ys := by
  induction xs with
  | nil =>
    rw [List.nil_append, splitChar]
    cases h : splitChar c ys with
    | nil => exact absurd h (splitChar_ne_nil c ys)
    | cons z zs => simp
  | cons x xs ih =>
    have hx : x ≠ c := fun h => hxs (h ▸ List.mem_cons_self x xs)
    have hxs' : c ∉ xs := fun h => hxs (List.mem_cons_of_mem _ h)
    show splitChar c (x :: (xs ++ c :: ys)) = (x :: xs) :: splitChar c ys
    rw [splitChar, ih hxs']
    simp [hx]

theorem splitChar_no_sep (c : Char) (s : Str) (hs : c ∉ s) :
    splitChar c s = [s] := by
  induction s with
  | nil => simp [splitChar]
  | cons x xs ih =>
    have hx : x ≠ c := fun h => hs (h ▸ List.mem_cons_self x xs)
    have hxs : c ∉ xs := fun h => hs (List.mem_cons_of_mem _ h)
    simp [splitChar, ih hxs, hx]

theorem containsStr_of_prefix (pre rest pat : Str)
    (h : pat.isPrefixOf rest = true) :
    containsStr (pre ++ rest) pat = true := by
  induction pre with
  | nil => rw [List.nil_append, containsStr.eq_def, h, Bool.true_or]
  | cons a pre ih =>
    rw [List.cons_append, containsStr.eq_def]
    simp [ih]

/-- A slash-free string cannot carry an `http(s)` scheme, so it is not
a URL our model parses. (The real `url` crate can parse some slash-free
strings, but such a parse either fails, yields a host other than
`github.com`/`gitlab.com`, or yields a path without the slashes the
branch guards require, so `try_extract_vcs_url` returns `None` on them
either way — which is all this fact is used for.) -/
theorem parseUrl_no_slash (q : Str) (hq : '/' ∉ q) : parseUrl q = none := by
  have h8 : ¬ ("https://".data.isPrefixOf q = true) := by
    intro h
    have hpre : "https://".data <+: q := List.isPrefixOf_iff_prefix.mp h
    exact hq (hpre.subset (by decide))
  have h7 : ¬ ("http://".data.isPrefixOf q = true) := by
    intro h
    have hpre : "http://".data <+: q := List.isPrefixOf_iff_prefix.mp h
    exact hq (hpre.subset (by decide))
  simp only [parseUrl, Bool.not_eq_true] at h8 h7 ⊢
  rw [h8, h7]
  rfl

theorem tryExtractVcsUrl_no_slash (inner : Str → Except VersionError Extraction)
    (q : Str) (hq : '/' ∉ q) : tryExtractVcsUrl inner q = none := by
  rw [tryExtractVcsUrl, parseUrl_no_slash q hq]
  split <;> rfl

theorem extractFuel_no_slash (k : Nat) (q : Str) (hq : '/' ∉ q) :
    extractFuel (k + 1) q = extractGeneric q := by
  rw [extractFuel, tryExtractVcsUrl_no_slash _ q hq]

theorem mem_of_getLast_opt {α : Type} {l : List α} {a : α}
    (h : l.getLast? = some a) : a ∈ l := by
  have hmem : a ∈ l.getLast? := by rw [h]; rfl
  obtain ⟨hne, heq⟩ := List.mem_getLast?_eq_getLast hmem
  rw [heq]
  exact List.getLast_mem hne

/-- `try_extract_vcs_url` only feeds slash-free strings to its
recursive call (`faux` joins slash-free path pieces with `-` or with
`-archive.tar.gz`), so it cannot distinguish two callbacks that agree
on slash-free inputs. -/
theorem vcsBranch_congr (inner inner' : Str → Except VersionError Extraction)
    (url : Url) (h : ∀ q, '/' ∉ q → inner q = inner' q) :
    vcsBranch inner url = vcsBranch inner' url := by
  rw [vcsBranch.eq_def, vcsBranch.eq_def]
  cases hh : url.host with
  | none => rfl
  | some hostStr =>
    dsimp only
    by_cases hgh : hostStr = "github.com".data ∧
        containsStr url.path "archive/refs/tags/".data = true
    · rw [if_pos hgh, if_pos hgh]
      cases hp : (splitChar '/' url.path).get? 2 with
      | none => rfl
      | some project =>
        cases ha : (splitChar '/' url.path).getLast? with
        | none => rfl
        | some asset =>
          have hproj : '/' ∉ project :=
            splitChar_not_mem '/' url.path project (List.get?_mem hp)
          have hasset : '/' ∉ asset :=
            splitChar_not_mem '/' url.path asset (mem_of_getLast_opt ha)
          have hfaux : '/' ∉ project ++ '-' :: asset := by
            intro hmem
            rcases List.mem_append.mp hmem with hm | hm
            · exact hproj hm
            · rcases List.mem_cons.mp hm with hm | hm
              · exact absurd hm (by decide)
              · exact hasset hm
          dsimp only
          rw [h _ hfaux]
    · rw [if_neg hgh, if_neg hgh]
      by_cases hgl : hostStr = "gitlab.com".data ∧
          containsStr url.path "repository/archive.tar.gz".data = true
      · rw [if_pos hgl, if_pos hgl]
        cases hp : (splitChar '/' url.path).get? 2 with
        | none => rfl
        | some project =>
          have hproj : '/' ∉ project :=
            splitChar_not_mem '/' url.path project (List.get?_mem hp)
          have hfaux : '/' ∉ project ++ "-archive.tar.gz".data := by
            intro hmem
            rcases List.mem_append.mp hmem with hm | hm
            · exact hproj hm
            · exact absurd hm (by decide)
          dsimp only
          rw [h _ hfaux]
      · rw [if_neg hgl, if_neg hgl]

theorem tryExtractVcsUrl_congr (inner inner' : Str → Except VersionError Extraction)
    (path : Str) (h : ∀ q, '/' ∉ q → inner q = inner' q) :
    tryExtractVcsUrl inner path = tryExtractVcsUrl inner' path := by
  rw [tryExtractVcsUrl, tryExtractVcsUrl]
  split
  · rfl
  · cases hup : parseUrl path with
    | none => rfl
    | some url => exact vcsBranch_congr inner inner' url h

/-- Stability of the fuel-indexed `extract`: the recursive call only
ever receives slash-free `faux` strings, which never re-enter the VCS
branch, so every fuel of at least 2 computes the same function as the
unbounded recursion of the Rust code. -/
theorem extractFuel_stable (n : Nat) (path : Str) :
    extractFuel (n + 2) path = extractFuel 2 path := by
  rw [extractFuel, extractFuel]
  rw [tryExtractVcsUrl_congr (extractFuel (n + 1)) (extractFuel 1) path
    (fun q hq => by rw [extractFuel_no_slash _ q hq, extractFuel_no_slash 0 q hq])]

theorem then_eq_eq (o p : Ordering) : o.then p = .eq ↔ (o = .eq ∧ p = .eq) := by
  cases o <;> simp [Ordering.then]

theorem then_eq_lt (o p : Ordering) : o.then p = .lt ↔ (o = .lt ∨ (o = .eq ∧ p = .lt)) := by
  cases o <;> simp [Ordering.then]

theorem then_swap (o p : Ordering) : (o.then p).swap = o.swap.then p.swap := by
  cases o <;> rfl

theorem IsCmp.gt_iff {α : Type} {cmp : α → α → Ordering} (hc : IsCmp cmp)
    (a b : α) : cmp a b = .gt ↔ cmp b a = .lt := by
  rw [← hc.swap a b]
  cases cmp a b <;> simp [Ordering.swap]

theorem natCompare_swap (a b : Nat) : (compare a b).swap = compare b a := by
  rcases Nat.lt_trichotomy a b with h | h | h
  · rw [Nat.compare_eq_lt.mpr h, Nat.compare_eq_gt.mpr h]; rfl
  · subst h; rw [Nat.compare_eq_eq.mpr rfl]; rfl
  · rw [Nat.compare_eq_gt.mpr h, Nat.compare_eq_lt.mpr h]; rfl

theorem isCmp_natCompare : IsCmp (fun a b : Nat => compare a b) := by
  refine ⟨?_, ?_, ?_⟩
  · intro a b
    exact Nat.compare_eq_eq
  · intro a b
    exact natCompare_swap a b
  · intro a b c hab hbc
    simp only [Nat.compare_eq_lt] at hab hbc ⊢
    omega

theorem isCmp_cmpChar : IsCmp cmpChar := by
  refine ⟨?_, ?_, ?_⟩
  · intro a b
    rw [cmpChar, Nat.compare_eq_eq]
    constructor
    · intro h
      exact Char.ofNat_toNat a ▸ Char.ofNat_toNat b ▸ congrArg Char.ofNat h
    · intro h
      rw [h]
  · intro a b
    exact natCompare_swap a.toNat b.toNat
  · intro a b c hab hbc
    rw [cmpChar, Nat.compare_eq_lt] at hab hbc ⊢
    omega

theorem isCmp_cmpStr : IsCmp cmpStr := by
  have heq : ∀ a b : Str, cmpStr a b = .eq ↔ a = b := by
    intro a
    induction a with
    | nil => intro b; cases b <;> simp [cmpStr]
    | cons x xs ih =>
      intro b
      cases b with
      | nil => simp [cmpStr]
      | cons y ys =>
        rw [cmpStr, then_eq_eq, isCmp_cmpChar.eq_iff, ih]
        simp
  have hswap : ∀ a b : Str, (cmpStr a b).swap = cmpStr b a := by
    intro a
    induction a with
    | nil => intro b; cases b <;> rfl
    | cons x xs ih =>
      intro b
      cases b with
      | nil => rfl
      | cons y ys =>
        rw [cmpStr, cmpStr, then_swap, isCmp_cmpChar.swap, ih]
  refine ⟨heq, hswap, ?_⟩
  · intro a
    induction a with
    | nil =>
      intro b c hab hbc
      cases b with
      | nil => exact hbc
      | cons y ys =>
        cases c with
        | nil => simp [cmpStr] at hbc
        | cons z zs => simp [cmpStr]
    | cons x xs ih =>
      intro b c hab hbc
      cases b with
      | nil => simp [cmpStr] at hab
      | cons y ys =>
        cases c with
        | nil => simp [cmpStr] at hbc
        | cons z zs =>
          rw [cmpStr, then_eq_lt] at hab hbc ⊢
          rw [isCmp_cmpChar.eq_iff] at hab hbc ⊢
          rcases hab with hab | ⟨hab1, hab2⟩ <;> rcases hbc with hbc | ⟨hbc1, hbc2⟩
          · exact Or.inl (isCmp_cmpChar.lt_trans hab hbc)
          · exact Or.inl (hbc1 ▸ hab)
          · exact Or.inl (hab1 ▸ hbc)
          · exact Or.inr ⟨hab1.trans hbc1, ih hab2 hbc2⟩

theorem isCmp_cmpOpt : IsCmp cmpOpt := by
  refine ⟨?_, ?_, ?_⟩
  · intro a b
    cases a <;> cases b <;> simp [cmpOpt, isCmp_cmpStr.eq_iff]
  · intro a b
    cases a <;> cases b <;> first | rfl | exact isCmp_cmpStr.swap _ _
  · intro a b c hab hbc
    cases a <;> cases b <;> cases c <;> simp_all [cmpOpt]
    exact isCmp_cmpStr.lt_trans hab hbc

theorem kindRank_inj (a b : AssetKind) : kindRank a = kindRank b → a = b := by
  cases a <;> cases b <;> simp [kindRank]

theorem isCmp_cmpVa : IsCmp cmpVa := by
  refine ⟨?_, ?_, ?_⟩
  · intro a b
    rw [cmpVa, then_eq_eq, then_eq_eq, then_eq_eq, isCmp_cmpStr.eq_iff,
      Nat.compare_eq_eq, isCmp_cmpOpt.eq_iff, isCmp_cmpOpt.eq_iff]
    constructor
    · rintro ⟨h1, h2, h3, h4⟩
      cases a
      cases b
      simp_all
      exact kindRank_inj _ _ h2
    · rintro rfl
      exact ⟨rfl, rfl, rfl, rfl⟩
  · intro a b
    rw [cmpVa, cmpVa, then_swap, then_swap, then_swap, isCmp_cmpStr.swap,
      natCompare_swap, isCmp_cmpOpt.swap, isCmp_cmpOpt.swap]
  · intro a b c hab hbc
    rw [cmpVa, then_eq_lt, then_eq_lt, then_eq_lt] at hab hbc ⊢
    rw [isCmp_cmpStr.eq_iff, Nat.compare_eq_eq, Nat.compare_eq_lt,
      isCmp_cmpOpt.eq_iff] at hab hbc ⊢
    rcases hab with hab | ⟨he1, hab⟩
    · rcases hbc with hbc | ⟨hf1, hbc⟩
      · exact Or.inl (isCmp_cmpStr.lt_trans hab hbc)
      · exact Or.inl (hf1 ▸ hab)
    · rcases hbc with hbc | ⟨hf1, hbc⟩
      · exact Or.inl (he1 ▸ hbc)
      · refine Or.inr ⟨he1.trans hf1, ?_⟩
        rcases hab with hab | ⟨he2, hab⟩
        · rcases hbc with hbc | ⟨hf2, hbc⟩
          · exact Or.inl (by omega)
          · exact Or.inl (hf2 ▸ hab)
        · rcases hbc with hbc | ⟨hf2, hbc⟩
          · exact Or.inl (he2 ▸ hbc)
          · refine Or.inr ⟨he2.trans hf2, ?_⟩
            rcases hab with hab | ⟨he3, hab⟩
            · rcases hbc with hbc | ⟨hf3, hbc⟩
              · exact Or.inl (isCmp_cmpOpt.lt_trans hab hbc)
              · exact Or.inl (hf3 ▸ hab)
            · rcases hbc with hbc | ⟨hf3, hbc⟩
              · exact Or.inl (he3 ▸ hbc)
              · exact Or.inr ⟨he3.trans hf3, isCmp_cmpOpt.lt_trans hab hbc⟩

theorem IsCmp.ne_of_lt {α : Type} {cmp : α → α → Ordering} (hc : IsCmp cmp)
    {a b : α} (h : cmp a b = .lt) : a ≠ b := by
  intro heq
  rw [heq, (hc.eq_iff b b).mpr rfl] at h
  exact Ordering.noConfusion h

theorem setInsertBy_subset {α : Type} (cmp : α → α → Ordering) (a : α) (l : List α) :
    ∀ x ∈ setInsertBy cmp a l, x = a ∨ x ∈ l := by
  induction l with
  | nil => simp [setInsertBy]
  | cons b t ih =>
    intro x hx
    rw [setInsertBy] at hx
    rcases h : cmp a b with _ | _ | _ <;> rw [h] at hx
    · rcases List.mem_cons.mp hx with rfl | hx
      · exact Or.inl rfl
      · exact Or.inr hx
    · exact Or.inr hx
    · rcases List.mem_cons.mp hx with rfl | hx
      · exact Or.inr (List.mem_cons_self _ _)
      · rcases ih x hx with h1 | h1
        · exact Or.inl h1
        · exact Or.inr (List.mem_cons_of_mem _ h1)

theorem setInsertBy_pairwise {α : Type} {cmp : α → α → Ordering} (hc : IsCmp cmp)
    (a : α) (l : List α) (hl : l.Pairwise fun x y => cmp x y = .lt) :
    (setInsertBy cmp a l).Pairwise fun x y => cmp x y = .lt := by
  induction l with
  | nil => simp [setInsertBy]
  | cons b t ih =>
    rw [List.pairwise_cons] at hl
    obtain ⟨hb, ht⟩ := hl
    rw [setInsertBy]
    rcases h : cmp a b with _ | _ | _
    · refine List.Pairwise.cons ?_ (List.Pairwise.cons hb ht)
      intro y hy
      rcases List.mem_cons.mp hy with rfl | hy
      · exact h
      · exact hc.lt_trans h (hb y hy)
    · exact List.Pairwise.cons hb ht
    · refine List.Pairwise.cons ?_ (ih ht)
      intro y hy
      rcases setInsertBy_subset cmp a t y hy with hya | hy
      · rw [hya]
        exact (hc.gt_iff a b).mp h
      · exact hb y hy

theorem collectSet_pairwise {α : Type} {cmp : α → α → Ordering} (hc : IsCmp cmp)
    (l : List α) :
    (collectSet cmp l).Pairwise fun x y => cmp x y = .lt := by
  rw [collectSet]
  suffices h : ∀ acc : List α, (acc.Pairwise fun x y => cmp x y = .lt) →
      ((l.foldl (fun s a => setInsertBy cmp a s) acc).Pairwise fun x y => cmp x y = .lt) by
    exact h [] (List.Pairwise.nil)
  induction l with
  | nil => intro acc hacc; exact hacc
  | cons x xs ih =>
    intro acc hacc
    exact ih (setInsertBy cmp x acc) (setInsertBy_pairwise hc x acc hacc)

theorem splitChar_cons_sep (c : Char) (xs : Str) :
    splitChar c (c :: xs) = [] :: splitChar c xs := by
  rw [splitChar]
  cases h : splitChar c xs with
  | nil => exact absurd h (splitChar_ne_nil c xs)
  | cons y ys => simp

theorem takeWhile_append_all {p : Char → Bool} (l₁ l₂ : Str)
    (h : ∀ c ∈ l₁, p c = true) :
    (l₁ ++ l₂).takeWhile p = l₁ ++ l₂.takeWhile p := by
  induction l₁ with
  | nil => simp
  | cons a t ih =>
    rw [List.cons_append, List.takeWhile_cons, h a (List.mem_cons_self a t),
      ih fun c hc => h c (List.mem_cons_of_mem a hc)]
    simp

theorem dropWhile_append_all {p : Char → Bool} (l₁ l₂ : Str)
    (h : ∀ c ∈ l₁, p c = true) :
    (l₁ ++ l₂).dropWhile p = l₂.dropWhile p := by
  induction l₁ with
  | nil => simp
  | cons a t ih =>
    rw [List.cons_append, List.dropWhile_cons, h a (List.mem_cons_self a t),
      ih fun c hc => h c (List.mem_cons_of_mem a hc)]
    simp

theorem findSome?_cons_none {α β : Type} {f : α → Option β} {a : α} (l : List α)
    (h : f a = none) : (a :: l).findSome? f = l.findSome? f := by
  rw [List.findSome?_cons, h]

theorem findSome?_cons_some {α β : Type} {f : α → Option β} {a : α} {b : β} (l : List α)
    (h : f a = some b) : (a :: l).findSome? f = some b := by
  rw [List.findSome?_cons, h]

/-- `findSome?` returns the image of the first element whose image is
`some`: the first-match-wins evaluation of the pattern loop. -/
theorem findSome?_first {α β : Type} (f : α → Option β) :
    ∀ (l : List α) (i : Nat) (hi : i < l.length) (r : β),
      (∀ j (hj : j < i), f (l.get ⟨j, hj.trans hi⟩) = none) →
      f (l.get ⟨i, hi⟩) = some r →
      l.findSome? f = some r := by
  intro l
  induction l with
  | nil => intro i hi; simp at hi
  | cons a t ih =>
    intro i hi r hearlier hhit
    cases i with
    | zero => exact findSome?_cons_some t hhit
    | succ i =>
      have h0 : f a = none := hearlier 0 (Nat.succ_pos i)
      rw [findSome?_cons_none t h0]
      exact ih i (Nat.lt_of_succ_lt_succ hi) r
        (fun j hj => hearlier (j + 1) (Nat.succ_lt_succ hj)) hhit

/-! ### Matches consume a separator character (for claim C10) -/

theorem matchR_cls_mem {cc : CC} {s : Str} {p : Nat × Caps}
    (h : p ∈ matchR (.cls cc) s) :
    ∃ ch t, s = ch :: t ∧ cc.test ch = true := by
  cases s with
  | nil => simp [matchR] at h
  | cons ch t =>
    rw [matchR] at h
    by_cases hc : cc.test ch = true
    · exact ⟨ch, t, rfl, hc⟩
    · rw [if_neg hc] at h
      simp at h

theorem matchR_cat_mem {a b : RE} {s : Str} {p : Nat × Caps}
    (h : p ∈ matchR (.cat a b) s) :
    ∃ q ∈ matchR a s, ∃ w ∈ matchR b (s.drop q.1), p = (q.1 + w.1, q.2 ++ w.2) := by
  rw [matchR] at h
  rw [List.mem_flatMap] at h
  obtain ⟨q, hq, hmap⟩ := h
  rw [List.mem_map] at hmap
  obtain ⟨w, hw, heq⟩ := hmap
  exact ⟨q, hq, w, hw, heq.symm⟩

/-- Any match of a default-table pattern consumes a character of the
separator class. -/
theorem mkPat_mem_sep {np rest : RE} {sep : CC} {s : Str} {p : Nat × Caps}
    (h : p ∈ matchR (mkPat np sep rest) s) :
    ∃ ch ∈ s, sep.test ch = true := by
  obtain ⟨q, _, w, hw, _⟩ := matchR_cat_mem h
  obtain ⟨q', hq', _, _, _⟩ := matchR_cat_mem hw
  obtain ⟨ch, t, hst, htest⟩ := matchR_cls_mem hq'
  refine ⟨ch, ?_, htest⟩
  exact List.drop_subset q.1 s (hst ▸ List.mem_cons_self ch t)

theorem findFrom_sep {np rest : RE} {sep : CC} {c : Caps} :
    ∀ s : Str, findFrom (mkPat np sep rest) s = some c →
      ∃ ch ∈ s, sep.test ch = true := by
  intro s
  induction s with
  | nil =>
    intro h
    rw [findFrom] at h
    cases hh : (matchR (mkPat np sep rest) []).head? with
    | some p =>
      obtain ⟨ch, hch, _⟩ := mkPat_mem_sep (List.mem_of_mem_head? (by rw [hh]; rfl))
      simp at hch
    | none => rw [hh] at h; simp at h
  | cons x t ih =>
    intro h
    rw [findFrom] at h
    cases hh : (matchR (mkPat np sep rest) (x :: t)).head? with
    | some p =>
      exact mkPat_mem_sep (List.mem_of_mem_head? (by rw [hh]; rfl))
    | none =>
      rw [hh] at h
      obtain ⟨ch, hch, htest⟩ := ih h
      exact ⟨ch, List.mem_cons_of_mem x hch, htest⟩

theorem runPattern_sep {p : VersionPattern} {np rest : RE} {sep : CC}
    (hre : p.re = mkPat np sep rest) (filename : Str) (e : Extraction)
    (h : runPattern p filename = some e) :
    ∃ ch ∈ filename, sep.test ch = true := by
  rw [runPattern, hre] at h
  cases hf : findFrom (mkPat np sep rest) filename with
  | none => rw [hf] at h; exact absurd h (by simp)
  | some caps => exact findFrom_sep filename hf

/-! ### Association-map lemmas (for PlainHost) -/

theorem hmExtend_keys (k : Str) (v : List VersionedAsset) :
    ∀ m : List (Str × List VersionedAsset),
      (hmExtend k v m).map Prod.fst =
        if k ∈ m.map Prod.fst then m.map Prod.fst else m.map Prod.fst ++ [k] := by
  intro m
  induction m with
  | nil => simp [hmExtend]
  | cons p t ih =>
    obtain ⟨k', v'⟩ := p
    rw [hmExtend]
    by_cases hk : k' = k
    · subst hk
      simp
    · rw [if_neg hk]
      simp only [List.map_cons]
      rw [ih]
      by_cases hmem : k ∈ t.map Prod.fst
      · rw [if_pos hmem, if_pos (List.mem_cons_of_mem _ hmem)]
      · rw [if_neg hmem, if_neg (by simp [hmem, Ne.symm hk]), List.cons_append]

theorem hmExtend_keys_nodup (k : Str) (v : List VersionedAsset)
    (m : List (Str × List VersionedAsset)) (h : (m.map Prod.fst).Nodup) :
    ((hmExtend k v m).map Prod.fst).Nodup := by
  rw [hmExtend_keys]
  by_cases hmem : k ∈ m.map Prod.fst
  · rw [if_pos hmem]; exact h
  · rw [if_neg hmem]
    simp [List.nodup_append, h, hmem]

theorem pairMem_nil (v u : Str) : ¬ pairMem [] v u := by
  simp [pairMem]

theorem pairMem_cons (a : Str) (b : List VersionedAsset)
    (t : List (Str × List VersionedAsset)) (v u : Str) :
    pairMem ((a, b) :: t) v u ↔
      ((v = a ∧ (⟨u, .release, none, none⟩ : VersionedAsset) ∈ b) ∨ pairMem t v u) := by
  constructor
  · rintro ⟨dls, hdls, hmem⟩
    rcases List.mem_cons.mp hdls with heq | h
    · rw [Prod.mk.injEq] at heq
      exact Or.inl ⟨heq.1, heq.2 ▸ hmem⟩
    · exact Or.inr ⟨dls, h, hmem⟩
  · rintro (⟨rfl, hmem⟩ | ⟨dls, h, hmem⟩)
    · exact ⟨b, List.mem_cons_self _ _, hmem⟩
    · exact ⟨dls, List.mem_cons_of_mem _ h, hmem⟩

theorem pairMem_hmExtend (k : Str) (x : VersionedAsset) :
    ∀ (m : List (Str × List VersionedAsset)) (v u : Str),
      pairMem (hmExtend k [x] m) v u ↔
        ((v = k ∧ (⟨u, .release, none, none⟩ : VersionedAsset) = x) ∨ pairMem m v u) := by
  intro m
  induction m with
  | nil =>
    intro v u
    rw [hmExtend, pairMem_cons]
    simp [pairMem_nil]
  | cons p t ih =>
    obtain ⟨k', v'⟩ := p
    intro v u
    rw [hmExtend]
    by_cases hk : k' = k
    · subst hk
      rw [if_pos rfl, pairMem_cons, pairMem_cons]
      simp only [List.mem_append, List.mem_singleton]
      constructor
      · rintro (⟨rfl, hm | rfl⟩ | h)
        · exact Or.inr (Or.inl ⟨rfl, hm⟩)
        · exact Or.inl ⟨rfl, rfl⟩
        · exact Or.inr (Or.inr h)
      · rintro (⟨rfl, rfl⟩ | ⟨rfl, hm⟩ | h)
        · exact Or.inl ⟨rfl, Or.inr rfl⟩
        · exact Or.inl ⟨rfl, Or.inl hm⟩
        · exact Or.inr h
    · rw [if_neg hk, pairMem_cons, pairMem_cons, ih]
      tauto

theorem map_version_pairwise {l : List Str} {F : Str → VersionMetadata}
    (hF : ∀ v, (F v).version = v)
    (h : l.Pairwise fun a b => cmpStr a b = .lt) :
    ((l.map F).map fun md => md.version).Pairwise fun a b => cmpStr a b = .lt := by
  rw [List.map_map]
  have hcomp : ((fun md : VersionMetadata => md.version) ∘ F) = fun v => v :=
    funext fun v => hF v
  rw [hcomp]
  simpa using h

/-!
## The claims
-/

/-- C8: on the spec's literal plain-filename inputs, `extract` returns
exactly the stated name/version pairs:
`NetworkManager-1.50.0.tar.xz ↦ (NetworkManager, 1.50.0)`,
`libedit-20221030-3.1.tar.gz ↦ (libedit, 20221030-3.1)`,
`nano-8.3.tar.xz ↦ (nano, 8.3)`. -/
theorem c8_literal_extractions :
    extract "NetworkManager-1.50.0.tar.xz".data =
      .ok ⟨"NetworkManager".data, "1.50.0".data⟩ ∧
    extract "libedit-20221030-3.1.tar.gz".data =
      .ok ⟨"libedit".data, "20221030-3.1".data⟩ ∧
    extract "nano-8.3.tar.xz".data = .ok ⟨"nano".data, "8.3".data⟩ :=
  ⟨by decide, by decide, by decide⟩

/-- C1, counterexample: on the spec's own scenario — one tag
`{name: "v1.0", tarball_url: "A"}` and one release
`{tag_name: "v1.0", tarball_url: "A", assets: []}` — `versions()`
yields one `VersionMetadata` for `v1.0` whose downloads contain TWO
assets, not one: the tag contributes `(A, Autogenerated)` and the
release `(A, Release)`, and the set deduplicates by the whole
`(url, kind)` tuple, so the shared URL does not collapse. -/
theorem c1_dedup_counterexample :
    (githubVersions [c1Tag] [c1Rel]).map
        (fun md => (md.version, md.downloads.length)) = [("v1.0".data, 2)] ∧
    ¬ ∀ md ∈ githubVersions [c1Tag] [c1Rel], md.downloads.length = 1 :=
  ⟨by decide, by decide⟩

/-- C1, amended: on the same scenario `versions()` yields exactly one
`VersionMetadata` with version `v1.0` whose downloads contain exactly
two assets for URL `A` — one `Autogenerated` (from the tag) and one
`Release` (from the release) — and no duplicate `(url, kind)` pair. -/
theorem c1_dedup_amended :
    (githubVersions [c1Tag] [c1Rel]).length = 1 ∧
    ∀ md ∈ githubVersions [c1Tag] [c1Rel],
      md.version = "v1.0".data ∧
      md.downloads.length = 2 ∧
      md.downloads.Nodup ∧
      (⟨"A".data, .autogenerated, none, none⟩ : VersionedAsset) ∈ md.downloads ∧
      (⟨"A".data, .release, none, none⟩ : VersionedAsset) ∈ md.downloads :=
  ⟨by decide, by decide⟩

/-- C2, counterexample: a GnomeHost `versions()` result need not have
pairwise-distinct version strings — the loop iterates every component
of the cache response, so two components sharing the version string
`1.0` produce two `VersionMetadata` entries with the same version. -/
theorem c2_unique_counterexample :
    (gnomeVersions c2GnomeHost c2Resp).map (fun md => md.version) =
      ["1.0".data, "1.0".data] ∧
    ¬ ((gnomeVersions c2GnomeHost c2Resp).map fun md => md.version).Nodup :=
  ⟨by decide, by decide⟩

/-- C6, counterexample: a URL whose host is `github.com` but whose path
has no non-empty segment makes `from_url` fail with a `ParseError`
instead of yielding a Github-kind host. -/
theorem c6_dispatch_counterexample :
    c6Url.host = some "github.com".data ∧
    fromUrl c6Url =
      .error (.parseError "missing repository owner in GitHub URL".data) ∧
    ∀ h : GithubHost, fromUrl c6Url ≠ .ok (.github h) := by
  refine ⟨rfl, by decide, ?_⟩
  intro h hcontra
  rw [show fromUrl c6Url =
      .error (.parseError "missing repository owner in GitHub URL".data) from by decide]
    at hcontra
  exact Except.noConfusion hcontra

/-- A step function that either keeps the accumulator or extends one
key preserves distinctness of the keys. -/
theorem foldl_keys_nodup_of_step {β : Type}
    (step : List (Str × List VersionedAsset) → β → List (Str × List VersionedAsset))
    (hstep : ∀ m b, step m b = m ∨ ∃ k v, step m b = hmExtend k v m) :
    ∀ (l : List β) (m : List (Str × List VersionedAsset)),
      (m.map Prod.fst).Nodup → (((l.foldl step m)).map Prod.fst).Nodup := by
  intro l
  induction l with
  | nil => intro m h; exact h
  | cons b t ih =>
    intro m h
    rw [List.foldl_cons]
    apply ih
    rcases hstep m b with he | ⟨k, v, he⟩ <;> rw [he]
    · exact h
    · exact hmExtend_keys_nodup k v m h

/-- C2, amended: within one `versions()` result the version strings
are pairwise distinct for GithubHost (always) and PlainHost (always);
for GnomeHost they are pairwise distinct provided no two components of
the fetched cache document share a version key (the loop iterates all
components without cross-component deduplication). -/
theorem c2_unique_amended :
    (∀ (tags : List GithubTagResponse) (releases : List GithubReleaseResponse),
      ((githubVersions tags releases).map fun md => md.version).Nodup) ∧
    (∀ (host : PlainHost) (hrefs : List Str) (out : List VersionMetadata),
      plainVersions host hrefs = .ok out →
      (out.map fun md => md.version).Nodup) ∧
    (∀ (host : GnomeHost) (resp : GnomeCacheResponse),
      (resp.components.flatMap fun comp => comp.2.map fun vf => vf.1).Nodup →
      ((gnomeVersions host resp).map fun md => md.version).Nodup) := by
  refine ⟨?_, ?_, ?_⟩
  · intro tags releases
    rw [githubVersions]
    exact List.Pairwise.imp (fun h => isCmp_cmpStr.ne_of_lt h)
      (map_version_pairwise (fun v => rfl) (collectSet_pairwise isCmp_cmpStr _))
  · intro host hrefs out h
    rw [plainVersions] at h
    cases hex : extract host.url.raw with
    | error e => rw [hex] at h; exact absurd h (by simp)
    | ok matchUs =>
      rw [hex] at h
      simp only [Except.ok.injEq] at h
      subst h
      rw [List.map_map]
      apply foldl_keys_nodup_of_step
      · intro m href
        cases hx : extract href with
        | error e => exact Or.inl (by simp only [hx])
        | ok mh =>
          by_cases hn : mh.name = matchUs.name
          · refine Or.inr ⟨mh.version,
              [{ url := if "http".data.isPrefixOf href then href
                   else (host.url.host.getD []) ++ host.directory ++
                     '/' :: (href.dropWhile fun c => c = '.'),
                 kind := .release, released_at := none, updated_at := none }], ?_⟩
            simp only [hx, if_pos hn]
          · exact Or.inl (by simp only [hx, if_neg hn])
      · simp
  · intro host resp hnodup
    rw [gnomeVersions, List.map_flatMap]
    have : (fun comp : Str × List (Str × GnomeCacheComponentFile) =>
        ((comp.2.map fun vf =>
          let mkAsset : Str → VersionedAsset := fun f =>
            { url := "https://download.gnome.org/sources/".data ++
                host.project ++ '/' :: f
              kind := .release, released_at := none, updated_at := none }
          let downloads :=
            (match vf.2.tarxz with | some f => [mkAsset f] | none => []) ++
            (match vf.2.targz with | some f => [mkAsset f] | none => []) ++
            (match vf.2.tarbz2 with | some f => [mkAsset f] | none => [])
          ({ version := vf.1, downloads := downloads,
             release_notes := none, released_at := none } : VersionMetadata))).map
          fun md => md.version) =
        fun comp => comp.2.map fun vf => vf.1 := by
      funext comp
      rw [List.map_map]
      rfl
    rw [this]
    exact hnodup

theorem c2_unique_amended_witness :
    ((githubVersions [c1Tag] [c1Rel]).map fun md => md.version).Nodup ∧
    (c2PlainOut.map fun md => md.version).Nodup ∧
    ((gnomeVersions c2GnomeHost c2RespOk).map fun md => md.version).Nodup :=
  ⟨c2_unique_amended.1 [c1Tag] [c1Rel],
    c2_unique_amended.2.1 c3Host [c3Href] c2PlainOut (by decide),
    c2_unique_amended.2.2 c2GnomeHost c2RespOk (by decide)⟩

/-- C6, amended: on any URL (with the leading-slash path every http(s)
URL has), dispatch by host: host `github.com` with at least two
non-empty path segments yields the Github host built from the first
two; host `github.com` with fewer segments fails with a `ParseError`;
any other host yields the PlainHost fallback. -/
theorem c6_dispatch_amended :
    ∀ (u : Url) (rest : Str), u.path = '/' :: rest →
      ((u.host = some "github.com".data →
        ∀ owner repo,
          ((splitChar '/' u.path).filter fun x => x ≠ []).get? 0 = some owner →
          ((splitChar '/' u.path).filter fun x => x ≠ []).get? 1 = some repo →
          fromUrl u = .ok (.github ⟨owner, repo, u⟩)) ∧
      (u.host = some "github.com".data →
        ((splitChar '/' u.path).filter fun x => x ≠ []).length < 2 →
        ∃ msg, fromUrl u = .error (.parseError msg)) ∧
      (u.host ≠ some "github.com".data →
        fromUrl u = .ok (.plain (PlainHost.fromUrl u)))) := by
  intro u rest hpath
  have hsegs : ((splitChar '/' u.path).filter fun x => x ≠ []) =
      (((splitChar '/' u.path).drop 1).filter fun x => x ≠ []) := by
    rw [hpath, splitChar_cons_sep]
    simp
  refine ⟨?_, ?_, ?_⟩
  · intro hhost owner repo h0 h1
    rw [hsegs] at h0 h1
    rw [fromUrl.eq_def, hhost]
    dsimp only
    rw [if_pos rfl, GithubHost.fromUrl.eq_def]
    dsimp only
    rw [h0, h1]
    rfl
  · intro hhost hlen
    rw [hsegs] at hlen
    rw [fromUrl.eq_def, hhost]
    dsimp only
    rw [if_pos rfl, GithubHost.fromUrl.eq_def]
    dsimp only
    cases h0 : (((splitChar '/' u.path).drop 1).filter fun x => x ≠ []).get? 0 with
    | none =>
      exact ⟨"missing repository owner in GitHub URL".data, rfl⟩
    | some owner =>
      have h1 : (((splitChar '/' u.path).drop 1).filter fun x => x ≠ []).get? 1 = none :=
        List.get?_eq_none.mpr (by omega)
      rw [h1]
      exact ⟨"missing repository name in GitHub URL".data, rfl⟩
  · intro hhost
    rw [fromUrl.eq_def]
    cases hh : u.host with
    | none => rfl
    | some h =>
      dsimp only
      rw [if_neg fun heq => hhost (by rw [hh, heq])]

theorem c6_dispatch_amended_witness :
    fromUrl c6OkUrl = .ok (.github ⟨"cli".data, "cli".data, c6OkUrl⟩) ∧
    (∃ msg, fromUrl c6Url = .error (.parseError msg)) ∧
    fromUrl c6OtherUrl = .ok (.plain (PlainHost.fromUrl c6OtherUrl)) :=
  ⟨(c6_dispatch_amended c6OkUrl "cli/cli".data rfl).1 rfl "cli".data "cli".data
      (by decide) (by decide),
    (c6_dispatch_amended c6Url "".data rfl).2.1 rfl (by decide),
    (c6_dispatch_amended c6OtherUrl "dist/nano-8.3.tar.xz".data rfl).2.2 (by decide)⟩

/-- C9: every `GithubHost::versions` result is sorted in strictly
ascending lexicographic (byte-wise) order of the version string — the
version set is collected into a `BTreeSet<String>` and iterated in
order — and within each entry the downloads, collected into a
`BTreeSet<VersionedAsset>`, are strictly sorted by the tuple order
`cmpVa` and hence contain no duplicates. -/
theorem c9_github_versions_sorted (tags : List GithubTagResponse)
    (releases : List GithubReleaseResponse) :
    (((githubVersions tags releases).map fun md => md.version).Pairwise
      fun a b => cmpStr a b = .lt) ∧
    ∀ md ∈ githubVersions tags releases,
      md.downloads.Pairwise fun a b => cmpVa a b = .lt ∧ a ≠ b := by
  constructor
  · rw [githubVersions]
    exact map_version_pairwise (fun v => rfl)
      (collectSet_pairwise isCmp_cmpStr _)
  · intro md hmd
    rw [githubVersions] at hmd
    obtain ⟨v, hv, rfl⟩ := List.mem_map.mp hmd
    exact List.Pairwise.imp (fun h => ⟨h, isCmp_cmpVa.ne_of_lt h⟩)
      (collectSet_pairwise isCmp_cmpVa _)

/-- C7: GnomeHost construction succeeds exactly when the path's first
non-empty segment equals `sources` and a second non-empty segment
exists; then `project` is that second segment. Every other URL —
no path segments at all, a first segment other than `sources`, or a
missing second segment — fails with `InvalidUrl`. -/
theorem c7_gnome_construction :
    ∀ u : Url,
      (∀ h, GnomeHost.fromUrl u = .ok h →
        ∃ segs, u.pathSegments = some segs ∧
          (segs.filter fun p => p ≠ []).get? 0 = some "sources".data ∧
          (segs.filter fun p => p ≠ []).get? 1 = some h.project ∧
          h.url = u) ∧
      (∀ segs, u.pathSegments = some segs →
        (segs.filter fun p => p ≠ []).get? 0 = some "sources".data →
        ∀ project, (segs.filter fun p => p ≠ []).get? 1 = some project →
        GnomeHost.fromUrl u = .ok ⟨project, u⟩) ∧
      (u.pathSegments = none →
        GnomeHost.fromUrl u = .error (.invalidUrl "invalid URL format".data)) ∧
      (∀ segs, u.pathSegments = some segs →
        (segs.filter fun p => p ≠ []).get? 0 ≠ some "sources".data →
        GnomeHost.fromUrl u = .error (.invalidUrl "invalid URL format".data)) ∧
      (∀ segs, u.pathSegments = some segs →
        (segs.filter fun p => p ≠ []).get? 1 = none →
        GnomeHost.fromUrl u = .error (.invalidUrl "invalid URL format".data)) := by
  intro u
  cases hps : u.pathSegments with
  | none =>
    have heval : GnomeHost.fromUrl u = .error (.invalidUrl "invalid URL format".data) := by
      rw [GnomeHost.fromUrl.eq_def, hps]
    refine ⟨?_, ?_, ?_, ?_, ?_⟩
    · intro h hok
      rw [heval] at hok
      exact absurd hok (by simp)
    · intro segs hsegs
      exact absurd hsegs (by simp)
    · intro _
      exact heval
    · intro segs hsegs
      exact absurd hsegs (by simp)
    · intro segs hsegs
      exact absurd hsegs (by simp)
  | some segs =>
    cases hP : segs.filter (fun p => p ≠ ([] : Str)) with
    | nil =>
      have heval : GnomeHost.fromUrl u = .error (.invalidUrl "invalid URL format".data) := by
        rw [GnomeHost.fromUrl.eq_def, hps]
        dsimp only
        simp only [hP]
        rfl
      refine ⟨?_, ?_, ?_, ?_, ?_⟩
      · intro h hok
        rw [heval] at hok
        exact absurd hok (by simp)
      · intro segs' hsegs'
        obtain rfl : segs = segs' := by simpa using hsegs'
        rw [hP]
        intro h0
        exact absurd h0 (by simp)
      · intro hnone
        exact absurd hnone (by simp)
      · intro segs' hsegs' _
        exact heval
      · intro segs' hsegs' _
        exact heval
    | cons s0 rest =>
      by_cases hs0 : s0 = "sources".data
      · cases h1 : rest.get? 0 with
        | some project =>
          have heval : GnomeHost.fromUrl u = .ok ⟨project, u⟩ := by
            rw [GnomeHost.fromUrl.eq_def, hps]
            dsimp only
            simp only [hP]
            rw [if_neg (by simp [hs0])]
            simp only [List.get?_cons_succ]
            rw [h1]
          refine ⟨?_, ?_, ?_, ?_, ?_⟩
          · intro h hok
            rw [heval] at hok
            obtain rfl : (⟨project, u⟩ : GnomeHost) = h := by simpa using hok
            refine ⟨segs, rfl, ?_, ?_, rfl⟩
            · rw [hP, hs0]
              rfl
            · rw [hP]
              simpa using h1
          · intro segs' hsegs' h0 project' hproj
            obtain rfl : segs = segs' := by simpa using hsegs'
            rw [hP] at hproj
            simp only [List.get?_cons_succ] at hproj
            rw [h1] at hproj
            obtain rfl : project = project' := by simpa using hproj
            exact heval
          · intro hnone
            exact absurd hnone (by simp)
          · intro segs' hsegs' h0
            obtain rfl : segs = segs' := by simpa using hsegs'
            rw [hP] at h0
            exact absurd (by rw [hs0]; rfl) h0
          · intro segs' hsegs' hnone
            obtain rfl : segs = segs' := by simpa using hsegs'
            rw [hP] at hnone
            simp only [List.get?_cons_succ] at hnone
            rw [h1] at hnone
            exact absurd hnone (by simp)
        | none =>
          have heval : GnomeHost.fromUrl u = .error (.invalidUrl "invalid URL format".data) := by
            rw [GnomeHost.fromUrl.eq_def, hps]
            dsimp only
            simp only [hP]
            rw [if_neg (by simp [hs0])]
            simp only [List.get?_cons_succ]
            rw [h1]
          refine ⟨?_, ?_, ?_, ?_, ?_⟩
          · intro h hok
            rw [heval] at hok
            exact absurd hok (by simp)
          · intro segs' hsegs' h0 project' hproj
            obtain rfl : segs = segs' := by simpa using hsegs'
            rw [hP] at hproj
            simp only [List.get?_cons_succ] at hproj
            rw [h1] at hproj
            exact absurd hproj (by simp)
          · intro hnone
            exact absurd hnone (by simp)
          · intro segs' hsegs' _
            exact heval
          · intro segs' hsegs' _
            exact heval
      · have heval : GnomeHost.fromUrl u = .error (.invalidUrl "invalid URL format".data) := by
          rw [GnomeHost.fromUrl.eq_def, hps]
          dsimp only
          simp only [hP]
          rw [if_pos (by simp [hs0])]
        refine ⟨?_, ?_, ?_, ?_, ?_⟩
        · intro h hok
          rw [heval] at hok
          exact absurd hok (by simp)
        · intro segs' hsegs' h0
          obtain rfl : segs = segs' := by simpa using hsegs'
          rw [hP] at h0
          simp only [List.get?_cons_zero, Option.some.injEq] at h0
          exact absurd h0 hs0
        · intro hnone
          exact absurd hnone (by simp)
        · intro segs' hsegs' _
          exact heval
        · intro segs' hsegs' _
          exact heval

theorem c7_gnome_construction_witness :
    GnomeHost.fromUrl c7Url = .ok ⟨"gtk".data, c7Url⟩ ∧
    GnomeHost.fromUrl c7BadUrl = .error (.invalidUrl "invalid URL format".data) :=
  ⟨(c7_gnome_construction c7Url).2.1
      ["sources".data, "gtk".data, "3.24".data] (by decide) (by decide)
      "gtk".data (by decide),
    (c7_gnome_construction c7BadUrl).2.2.2.1
      ["teams".data, "gtk".data] (by decide) (by decide)⟩

/-- C10: on any input that contains neither `github.com` nor
`gitlab.com` and whose last `/`-separated segment contains neither `-`
nor `_` (the empty string included), `extract` fails with
`InvalidVersion`: every default pattern requires a `[-_]` (or `[-]`)
separator character inside the filename. -/
theorem c10_no_separator_fails :
    ∀ s : Str,
      containsStr s "github.com".data = false →
      containsStr s "gitlab.com".data = false →
      '-' ∉ lastSeg s → '_' ∉ lastSeg s →
      extract s = .error .invalidVersion := by
  intro s h1 h2 hd hu
  have hvcs : tryExtractVcsUrl (extractFuel 1) s = none := by
    rw [tryExtractVcsUrl, h1, h2]
    rfl
  have hall : ∀ p ∈ defaultPatterns, runPattern p (lastSeg s) = none := by
    have hsep : ∀ (p : VersionPattern) (np rest : RE) (sep : CC), p.re = mkPat np sep rest →
        (∀ ch, sep.test ch = true → ch = '-' ∨ ch = '_') →
        runPattern p (lastSeg s) = none := by
      intro p np rest sep hre hclass
      cases hr : runPattern p (lastSeg s) with
      | none => rfl
      | some e =>
        obtain ⟨ch, hch, htest⟩ := runPattern_sep hre (lastSeg s) e hr
        rcases hclass ch htest with rfl | rfl
        · exact absurd hch hd
        · exact absurd hch hu
    intro p hp
    simp only [defaultPatterns, List.mem_cons, List.not_mem_nil, or_false] at hp
    rcases hp with rfl | rfl | rfl | rfl | rfl | rfl
    · exact hsep _ _ _ _ rfl fun ch h => by simpa [CC.test] using h
    · exact hsep _ _ _ _ rfl fun ch h => by simpa [CC.test] using h
    · exact hsep _ _ _ _ rfl fun ch h => by simpa [CC.test] using h
    · exact hsep _ _ _ _ rfl fun ch h => by simpa [CC.test] using h
    · exact hsep _ _ _ _ rfl fun ch h => by simpa [CC.test] using h
    · exact hsep _ _ _ _ rfl fun ch h => Or.inl (by simpa [CC.test] using h)
  show extractFuel 2 s = .error .invalidVersion
  rw [extractFuel, hvcs, extractGeneric,
    List.findSome?_eq_none_iff.mpr hall]

theorem c10_no_separator_witness :
    extract "nano.tar.xz".data = .error .invalidVersion ∧
    extract "".data = .error .invalidVersion :=
  ⟨c10_no_separator_fails "nano.tar.xz".data (by decide) (by decide)
      (by decide) (by decide),
    c10_no_separator_fails "".data (by decide) (by decide) (by decide) (by decide)⟩

/-- C5: the default pattern table carries the priorities
`[5, 10, 25, 30, 35, 100]` in strictly ascending order, so the trying
order of the table is the ascending priority order; and whenever the
VCS branch declines, `extract` works on the last `/`-separated segment
of the input and returns the result of the first pattern (in that
order) whose `name` and `version` captures are both present, never a
later pattern's — so when a lower-priority-numbered and a
higher-priority-numbered pattern both match, the lower-numbered one
(being tried first among the two) supplies the result. -/
theorem c5_priority_first_match :
    ((defaultPatterns.map fun p => p.priority) = [5, 10, 25, 30, 35, 100] ∧
      (defaultPatterns.map fun p => p.priority).Pairwise (· < ·)) ∧
    ∀ (path : Str) (i : Nat) (hi : i < defaultPatterns.length) (r : Extraction),
      tryExtractVcsUrl (extractFuel 1) path = none →
      (∀ j (hj : j < i),
        runPattern (defaultPatterns.get ⟨j, hj.trans hi⟩) (lastSeg path) = none) →
      runPattern (defaultPatterns.get ⟨i, hi⟩) (lastSeg path) = some r →
      extract path = .ok r := by
  refine ⟨⟨by decide, by decide⟩, ?_⟩
  intro path i hi r hvcs hearlier hhit
  show extractFuel 2 path = .ok r
  rw [extractFuel, hvcs, extractGeneric,
    findSome?_first (fun p => runPattern p (lastSeg path)) defaultPatterns i hi r
      hearlier hhit]

theorem c5_priority_witness :
    extract "nano-8.3.tar.xz".data = .ok ⟨"nano".data, "8.3".data⟩ :=
  c5_priority_first_match.2 "nano-8.3.tar.xz".data 3 (by decide)
    ⟨"nano".data, "8.3".data⟩ (by decide) (by decide) (by decide)

/-- The computation at the heart of claim C4: on a GitHub tag-archive
URL with slash-free segments, `extract` enters the VCS branch, reads
`project` from the third path chunk and `asset` from the last, and
returns the generic extraction of the synthetic `project-asset`
filename with its name overridden to `project`. -/
theorem extract_github_archive (owner project asset : Str)
    (hso : '/' ∉ owner) (hsp : '/' ∉ project) (hsa : '/' ∉ asset) :
    extract ("https://".data ++ ("github.com".data ++
        ('/' :: (owner ++ '/' :: (project ++ '/' ::
          ("archive/refs/tags/".data ++ asset)))))) =
      (extract (project ++ '-' :: asset)).map fun m => { m with name := project } := by
  have hfx : '/' ∉ project ++ '-' :: asset := by
    intro hm
    rcases List.mem_append.mp hm with hm | hm
    · exact absurd hm hsp
    · rcases List.mem_cons.mp hm with hm | hm
      · exact absurd hm (by decide)
      · exact absurd hm hsa
  have hc1 : containsStr ("https://".data ++ ("github.com".data ++
      ('/' :: (owner ++ '/' :: (project ++ '/' ::
        ("archive/refs/tags/".data ++ asset)))))) "github.com".data = true := by
    apply containsStr_of_prefix
    exact List.isPrefixOf_iff_prefix.mpr (List.prefix_append _ _)
  have htw : (('/' :: (owner ++ '/' :: (project ++ '/' ::
      ("archive/refs/tags/".data ++ asset)))).takeWhile
        fun c => decide (c ≠ '/')) = [] := by
    rw [List.takeWhile_cons]
    simp
  have hdw : (('/' :: (owner ++ '/' :: (project ++ '/' ::
      ("archive/refs/tags/".data ++ asset)))).dropWhile
        fun c => decide (c ≠ '/')) =
      '/' :: (owner ++ '/' :: (project ++ '/' ::
        ("archive/refs/tags/".data ++ asset))) := by
    rw [List.dropWhile_cons]
    simp
  have hparse : parseUrl ("https://".data ++ ("github.com".data ++
      ('/' :: (owner ++ '/' :: (project ++ '/' ::
        ("archive/refs/tags/".data ++ asset)))))) =
      some { host := some "github.com".data
             path := '/' :: (owner ++ '/' :: (project ++ '/' ::
               ("archive/refs/tags/".data ++ asset)))
             raw := "https://".data ++ ("github.com".data ++
               ('/' :: (owner ++ '/' :: (project ++ '/' ::
                 ("archive/refs/tags/".data ++ asset))))) } := by
    rw [parseUrl]
    rw [show ("https://".data.isPrefixOf ("https://".data ++ ("github.com".data ++
        ('/' :: (owner ++ '/' :: (project ++ '/' ::
          ("archive/refs/tags/".data ++ asset))))))) = true from
      List.isPrefixOf_iff_prefix.mpr (List.prefix_append _ _)]
    rw [if_pos rfl]
    dsimp only
    rw [List.drop_left' (by rfl)]
    rw [takeWhile_append_all _ _ (by decide), dropWhile_append_all _ _ (by decide),
      htw, hdw]
    simp
  have hcont2 : containsStr ('/' :: (owner ++ '/' :: (project ++ '/' ::
      ("archive/refs/tags/".data ++ asset)))) "archive/refs/tags/".data = true := by
    rw [show '/' :: (owner ++ '/' :: (project ++ '/' ::
        ("archive/refs/tags/".data ++ asset))) =
      ('/' :: (owner ++ '/' :: (project ++ ['/']))) ++
        ("archive/refs/tags/".data ++ asset) from by simp]
    exact containsStr_of_prefix _ _ _
      (List.isPrefixOf_iff_prefix.mpr (List.prefix_append _ _))
  have hsplit : splitChar '/' ('/' :: (owner ++ '/' :: (project ++ '/' ::
      ("archive/refs/tags/".data ++ asset)))) =
      [[], owner, project, "archive".data, "refs".data, "tags".data, asset] := by
    rw [splitChar_cons_sep, splitChar_append '/' owner _ hso,
      splitChar_append '/' project _ hsp]
    rw [show "archive/refs/tags/".data ++ asset =
      "archive".data ++ '/' :: ("refs".data ++ '/' ::
        ("tags".data ++ '/' :: asset)) from by simp]
    rw [splitChar_append '/' "archive".data _ (by decide),
      splitChar_append '/' "refs".data _ (by decide),
      splitChar_append '/' "tags".data _ (by decide),
      splitChar_no_sep '/' asset hsa]
  show extractFuel 2 _ = _
  rw [extractFuel, tryExtractVcsUrl, hc1]
  rw [if_neg (by simp)]
  rw [hparse]
  dsimp only
  rw [vcsBranch.eq_def]
  dsimp only
  rw [if_pos ⟨rfl, hcont2⟩, hsplit]
  rw [show ([[], owner, project, "archive".data, "refs".data, "tags".data,
    asset] : List Str).get? 2 = some project from rfl]
  rw [show ([[], owner, project, "archive".data, "refs".data, "tags".data,
    asset] : List Str).getLast? = some asset from rfl]
  dsimp only
  rw [extractFuel_no_slash 0 _ hfx]
  rw [show extract (project ++ '-' :: asset) =
    extractGeneric (project ++ '-' :: asset) from extractFuel_no_slash 1 _ hfx]

/-- C4: for every GitHub tag-archive URL
`https://github.com/{owner}/{project}/archive/refs/tags/{asset}` (with
URL-safe, non-dot-segment path pieces, on which the simplified URL
model agrees with the `url` crate), `extract` returns name `project`,
its version equals the version `extract` gives the synthetic filename
`{project}-{asset}`, and it fails exactly when extraction from the
synthetic filename fails. -/
theorem c4_vcs_rewrite_law :
    ∀ owner project asset : Str,
      (∀ c ∈ owner, urlSafe c = true) →
      (∀ c ∈ project, urlSafe c = true) →
      (∀ c ∈ asset, urlSafe c = true) →
      owner ≠ ".".data → owner ≠ "..".data →
      project ≠ ".".data → project ≠ "..".data →
      asset ≠ ".".data → asset ≠ "..".data →
      (extract ("https://github.com/".data ++ (owner ++ '/' :: (project ++ '/' ::
          ("archive/refs/tags/".data ++ asset)))) =
        (extract (project ++ '-' :: asset)).map fun m => { m with name := project }) ∧
      (∀ e, extract (project ++ '-' :: asset) = .ok e →
        extract ("https://github.com/".data ++ (owner ++ '/' :: (project ++ '/' ::
          ("archive/refs/tags/".data ++ asset)))) = .ok ⟨project, e.version⟩) ∧
      (∀ err, extract (project ++ '-' :: asset) = .error err →
        extract ("https://github.com/".data ++ (owner ++ '/' :: (project ++ '/' ::
          ("archive/refs/tags/".data ++ asset)))) = .error err) := by
  intro owner project asset howner hproject hasset _ _ _ _ _ _
  have hso : '/' ∉ owner := fun hm => absurd (howner '/' hm) (by decide)
  have hsp : '/' ∉ project := fun hm => absurd (hproject '/' hm) (by decide)
  have hsa : '/' ∉ asset := fun hm => absurd (hasset '/' hm) (by decide)
  rw [show "https://github.com/".data ++ (owner ++ '/' :: (project ++ '/' ::
      ("archive/refs/tags/".data ++ asset))) =
    "https://".data ++ ("github.com".data ++ ('/' :: (owner ++ '/' :: (project ++ '/' ::
      ("archive/refs/tags/".data ++ asset))))) from by simp]
  have hmain := extract_github_archive owner project asset hso hsp hsa
  refine ⟨hmain, ?_, ?_⟩
  · intro e he
    rw [hmain, he]
    rfl
  · intro err he
    rw [hmain, he]
    rfl

theorem c4_vcs_rewrite_witness :
    extract "https://github.com/cli/cli/archive/refs/tags/v2.63.2.tar.gz".data =
      .ok ⟨"cli".data, "2.63.2".data⟩ := by
  have h := (c4_vcs_rewrite_law "cli".data "cli".data "v2.63.2.tar.gz".data
    (by decide) (by decide) (by decide) (by decide) (by decide) (by decide)
    (by decide) (by decide) (by decide)).2.1 ⟨"cli".data, "2.63.2".data⟩ (by decide)
  rw [show "https://github.com/cli/cli/archive/refs/tags/v2.63.2.tar.gz".data =
    "https://github.com/".data ++ ("cli".data ++ '/' :: ("cli".data ++ '/' ::
      ("archive/refs/tags/".data ++ "v2.63.2.tar.gz".data))) from by decide]
  exact h

/-! ### PlainHost keep/URL lemmas (for claim C3) -/

theorem hmExtend_shape {P : VersionedAsset → Prop} (k : Str) (x : VersionedAsset)
    (hx : P x) : ∀ m, (∀ p ∈ m, ∀ a ∈ p.2, P a) →
    ∀ p ∈ hmExtend k [x] m, ∀ a ∈ p.2, P a := by
  intro m
  induction m with
  | nil =>
    intro _ p hp a ha
    rw [hmExtend] at hp
    rcases List.mem_singleton.mp hp with rfl
    rcases List.mem_singleton.mp ha with rfl
    exact hx
  | cons q t ih =>
    obtain ⟨k', v'⟩ := q
    intro hm p hp a ha
    rw [hmExtend] at hp
    by_cases hk : k' = k
    · rw [if_pos hk] at hp
      rcases List.mem_cons.mp hp with rfl | hp'
      · rcases List.mem_append.mp ha with hm' | hx'
        · exact hm (k', v') (List.mem_cons_self _ _) a hm'
        · rcases List.mem_singleton.mp hx' with rfl
          exact hx
      · exact hm p (List.mem_cons_of_mem _ hp') a ha
    · rw [if_neg hk] at hp
      rcases List.mem_cons.mp hp with rfl | hp'
      · exact hm (k', v') (List.mem_cons_self _ _) a ha
      · exact ih (fun q hq => hm q (List.mem_cons_of_mem _ hq)) p hp' a ha

theorem foldl_shape_of_step {β : Type} {P : VersionedAsset → Prop}
    (step : List (Str × List VersionedAsset) → β → List (Str × List VersionedAsset))
    (hstep : ∀ m b, step m b = m ∨
      ∃ k x, P x ∧ step m b = hmExtend k [x] m) :
    ∀ (l : List β) (m : List (Str × List VersionedAsset)),
      (∀ p ∈ m, ∀ a ∈ p.2, P a) →
      ∀ p ∈ l.foldl step m, ∀ a ∈ p.2, P a := by
  intro l
  induction l with
  | nil => intro m hm; exact hm
  | cons b t ih =>
    intro m hm
    rw [List.foldl_cons]
    apply ih
    rcases hstep m b with he | ⟨k, x, hpx, he⟩ <;> rw [he]
    · exact hm
    · exact hmExtend_shape k x hpx m hm

/-- The per-element characterization of the grouping fold in
`PlainHost::versions`: a `(version, url)` pair is reachable in the
final map exactly when some processed element is kept with that
version and URL. -/
theorem foldl_pairMem_of_step {β : Type}
    (step : List (Str × List VersionedAsset) → β → List (Str × List VersionedAsset))
    (K : β → Option (Str × Str))
    (hstep : ∀ m b, (K b = none ∧ step m b = m) ∨
      ∃ v u, K b = some (v, u) ∧
        step m b = hmExtend v [⟨u, .release, none, none⟩] m) :
    ∀ (l : List β) (m : List (Str × List VersionedAsset)) (v u : Str),
      pairMem (l.foldl step m) v u ↔
        (pairMem m v u ∨ ∃ b ∈ l, K b = some (v, u)) := by
  intro l
  induction l with
  | nil =>
    intro m v u
    simp
  | cons b t ih =>
    intro m v u
    rw [List.foldl_cons, ih]
    rcases hstep m b with ⟨hK, he⟩ | ⟨v₀, u₀, hK, he⟩ <;> rw [he]
    · constructor
      · rintro (h | ⟨b', hb', hKb'⟩)
        · exact Or.inl h
        · exact Or.inr ⟨b', List.mem_cons_of_mem _ hb', hKb'⟩
      · rintro (h | ⟨b', hb', hKb'⟩)
        · exact Or.inl h
        · rcases List.mem_cons.mp hb' with rfl | hb''
          · rw [hK] at hKb'
            exact absurd hKb' (by simp)
          · exact Or.inr ⟨b', hb'', hKb'⟩
    · rw [pairMem_hmExtend]
      constructor
      · rintro ((⟨rfl, hxy⟩ | h) | ⟨b', hb', hKb'⟩)
        · rw [VersionedAsset.mk.injEq] at hxy
          refine Or.inr ⟨b, List.mem_cons_self _ _, ?_⟩
          rw [hK, hxy.1]
        · exact Or.inl h
        · exact Or.inr ⟨b', List.mem_cons_of_mem _ hb', hKb'⟩
      · rintro (h | ⟨b', hb', hKb'⟩)
        · exact Or.inl (Or.inr h)
        · rcases List.mem_cons.mp hb' with rfl | hb''
          · rw [hK] at hKb'
            simp only [Option.some.injEq, Prod.mk.injEq] at hKb'
            exact Or.inl (Or.inl ⟨hKb'.1.symm, by rw [hKb'.2]⟩)
          · exact Or.inr ⟨b', hb'', hKb'⟩

/-- C3, counterexample: for a project named `httpx`, the relative
`href` `httpx-1.0.tar.gz` starts with the literal characters `http`,
so the code keeps it **as-is** as the asset URL, although the `href`
is not an absolute URL and the claim's rule would demand the joined
host/directory URL. -/
theorem c3_plain_url_counterexample :
    (∃ out, plainVersions c3Host [c3Href] = .ok out ∧
      out.map (fun md => (md.version, md.downloads.map fun a => a.url)) =
        [("1.0".data, [c3Href])]) ∧
    specAbsoluteUrl c3Href = false ∧
    specC3AssetUrl (c3Host.url.host.getD []) c3Host.directory c3Href ≠ c3Href :=
  ⟨⟨c2PlainOut, by decide, by decide⟩, by decide, by decide⟩

/-- C3, amended: in `PlainHost::versions`, a scraped `href` is kept
exactly when its extraction succeeds with a name equal (character for
character) to the name extracted from the original URL; the kept
asset's URL is the `href` itself when the `href` starts with the
literal prefix `http`, and otherwise `host ++ directory ++ "/" ++ href`
with all leading `.` characters trimmed — as captured by `keptAsset`.
All produced assets are `Release`-kind without timestamps. -/
theorem c3_plain_keep_amended :
    ∀ (host : PlainHost) (hrefs : List Str) (refEx : Extraction),
      extract host.url.raw = .ok refEx →
      ∃ out, plainVersions host hrefs = .ok out ∧
        (∀ md ∈ out, ∀ a ∈ md.downloads,
          a.kind = .release ∧ a.released_at = none ∧ a.updated_at = none) ∧
        (∀ v u, (∃ md ∈ out, md.version = v ∧
            (⟨u, .release, none, none⟩ : VersionedAsset) ∈ md.downloads) ↔
          ∃ href ∈ hrefs, keptAsset refEx (host.url.host.getD [])
            host.directory href = some (v, u)) := by
  intro host hrefs refEx hex
  rw [plainVersions, hex]
  refine ⟨_, rfl, ?_, ?_⟩
  · intro md hmd a ha
    obtain ⟨p, hp, rfl⟩ := List.mem_map.mp hmd
    refine @foldl_shape_of_step Str
      (fun a => a.kind = .release ∧ a.released_at = none ∧ a.updated_at = none)
      _ ?_ hrefs [] (by simp) p hp a ha
    intro m href
    cases hx : extract href with
    | error e => exact Or.inl (by simp only [hx])
    | ok mh =>
      by_cases hn : mh.name = refEx.name
      · refine Or.inr ⟨mh.version,
          ⟨if "http".data.isPrefixOf href then href
             else (host.url.host.getD []) ++ host.directory ++
               '/' :: (href.dropWhile fun c => c = '.'),
           .release, none, none⟩, ⟨rfl, rfl, rfl⟩, ?_⟩
        simp only [hx, if_pos hn]
      · exact Or.inl (by simp only [hx, if_neg hn])
  · intro v u
    have hchar := foldl_pairMem_of_step
      (fun m href =>
        match extract href with
        | .ok mh =>
          if mh.name = refEx.name then
            let fullUrl :=
              if "http".data.isPrefixOf href then href
              else (host.url.host.getD []) ++ host.directory ++
                '/' :: (href.dropWhile fun c => c = '.')
            hmExtend mh.version
              [{ url := fullUrl, kind := .release,
                 released_at := none, updated_at := none }] m
          else m
        | .error _ => m)
      (keptAsset refEx (host.url.host.getD []) host.directory) ?_ hrefs [] v u
    · constructor
      · rintro ⟨md, hmd, hv, hmem⟩
        obtain ⟨p, hp, rfl⟩ := List.mem_map.mp hmd
        rcases hchar.mp ⟨p.2, by rw [← show p.1 = v from hv]; exact hp, hmem⟩ with h | h
        · exact absurd h (pairMem_nil v u)
        · exact h
      · intro h
        obtain ⟨dls, hdls, hmem⟩ := hchar.mpr (Or.inr h)
        refine ⟨⟨v, dls, none, none⟩, List.mem_map.mpr ⟨(v, dls), hdls, rfl⟩,
          rfl, hmem⟩
    · intro m href
      cases hx : extract href with
      | error e =>
        refine Or.inl ⟨?_, by simp only [hx]⟩
        rw [keptAsset, hx]
      | ok mh =>
        by_cases hn : mh.name = refEx.name
        · refine Or.inr ⟨mh.version,
            if "http".data.isPrefixOf href then href
              else (host.url.host.getD []) ++ host.directory ++
                '/' :: (href.dropWhile fun c => c = '.'), ?_, ?_⟩
          · rw [keptAsset, hx]
            dsimp only
            rw [if_pos hn]
          · simp only [hx, if_pos hn]
        · refine Or.inl ⟨?_, by simp only [hx, if_neg hn]⟩
          rw [keptAsset, hx]
          dsimp only
          rw [if_neg hn]

theorem c3_plain_keep_witness :
    ∃ out, plainVersions c3Host [c3Href] = .ok out ∧
      (∀ md ∈ out, ∀ a ∈ md.downloads,
        a.kind = .release ∧ a.released_at = none ∧ a.updated_at = none) ∧
      (∀ v u, (∃ md ∈ out, md.version = v ∧
          (⟨u, .release, none, none⟩ : VersionedAsset) ∈ md.downloads) ↔
        ∃ href ∈ [c3Href], keptAsset ⟨"httpx".data, "0.9".data⟩
          (c3Host.url.host.getD []) c3Host.directory href = some (v, u)) :=
  c3_plain_keep_amended c3Host [c3Href] ⟨"httpx".data, "0.9".data⟩ (by decide)

end Upstreams
